import Mathlib

/-!
# QueueWorld: QwMPMCPopAllLifoStack and QwSList

A shallow embedding of `QwMpmcPopAllLifoStack.h` and `QwSList.h`.

* A node pointer is a machine word, modelled as a `Nat`; `0` is the null pointer.
* `Heap` holds the `links_[]` array of every node: `h n i` is `n->links_[i]`.
* The template parameter `NEXT_LINK_INDEX` is the argument `i` of every operation.
* A fatal stop (failed check, failed `assert`, dereference of null) is an
  `Outcome.fatal`, which carries the memory as it was when execution stopped.
* Other threads appear to `push` as the list `env` of values they give `top_`
  between its load and its compare-and-swap.
* `pop_all` exchanges a `LONG`, which has 32 bits whatever the pointer width
  `PtrSize` is; pointer loads and compare-and-swaps have the full width.
* A member function of the class template that is ill-formed when instantiated
  has no run: `push_multiple` returns an `Option`, `none` meaning that a program
  calling it is rejected by the compiler.
-/

namespace QueueWorld

/-- Link arrays of all nodes: `h n i` is the value of `n->links_[i]`. -/
abbrev Heap := Nat → Nat → Nat

/-- Ways in which an operation stops fatally. -/
inductive Fault where
  /-- a C `assert( ... )` did not hold -/
  | assertFailed
  /-- `check_node_is_unlinked` found a non-null link slot -/
  | nodeLinked
  /-- a link slot of the null pointer was accessed (undefined behaviour) -/
  | nullDeref
  deriving DecidableEq, Repr

/-- Build configuration: the two compile-time switches the headers test. -/
structure Build where
  /-- `QW_VALIDATE_NODE_LINKS` is defined -/
  validateNodeLinks : Bool
  /-- `NDEBUG` is not defined, so `assert` is compiled in -/
  asserts : Bool
  deriving DecidableEq, Repr

/-- The validated build: link validation and assertions are both compiled in. -/
def Build.validated : Build := ⟨true, true⟩

/-- The non-validated build: neither link validation nor assertions. -/
def Build.unvalidated : Build := ⟨false, false⟩

/-- Result of running an operation on a memory of type `σ`. -/
inductive Outcome (σ α : Type) where
  /-- the operation returned `result`, leaving memory `state` -/
  | ok (result : α) (state : σ)
  /-- the operation stopped with `fault`; `state` is the memory at that moment -/
  | fatal (fault : Fault) (state : σ)

/-- Store `v` into `n->links_[i]`. -/
def Heap.set (h : Heap) (i n v : Nat) : Heap :=
  fun m j => if m = n ∧ j = i then v else h m j

/-- The memory in which every link slot of every node is null, as `TestNode()`
leaves its `links_[]`. -/
def Heap.unlinked : Heap := fun _ _ => 0

/-- Mintomic `MINT_PTR_SIZE`: the width of a pointer in bytes. -/
inductive PtrSize where
  | four
  | eight
  deriving DecidableEq, Repr

/-- Number of bits of a pointer. -/
def PtrSize.bits : PtrSize → Nat
  | .four => 32
  | .eight => 64

/-- Memory a stack operation acts on: the stack object (`top_`) and the nodes. -/
structure StackState where
  /-- `top_._nonatomic` -/
  top_ : Nat
  /-- link slots of the nodes -/
  heap : Heap

/-- `QwMPMCPopAllLifoStack()`: `top_._nonatomic = 0`. -/
def QwMPMCPopAllLifoStack (h : Heap) : StackState := ⟨0, h⟩

/-- What one run of the compare-and-swap retry loop leaves behind. -/
structure LoopResult where
  /-- memory after the loop -/
  state : StackState
  /-- value of the local variable `top` when the loop is left -/
  top : Nat
  /-- value returned by the last `mint_compare_exchange_strong_ptr_relaxed`, that
  is, the content of `top_` which that compare-and-swap found and replaced -/
  replaced : Nat
  /-- number of times the loop body ran -/
  iterations : Nat

/-- The `do { ... } while (CAS != top)` loop shared, line for line, by `push` and
`push(node, wasEmpty)`, and written again, with another cast on its load, in
`push_multiple`. `link` is the node whose next slot is
written (`node`, resp. `back`), `newTop` the pointer the compare-and-swap installs
(`node`, resp. `front`). `env` lists, one entry per iteration, the value other
threads have stored in `top_` between this thread's load and its compare-and-swap;
when `env` is used up nobody interferes. `k` counts the iterations already run. -/
def cas_retry_loop (i link newTop : Nat) : List Nat → StackState → Nat → LoopResult
  | [], s, k =>
      let top := s.top_                         -- mint_load_ptr_relaxed(&top_)
      let heap := s.heap.set i link top         -- nodeinfo::next_ptr(link) = top
      -- top_ still holds s.top_: the compare-and-swap returns it and stores newTop
      ⟨⟨newTop, heap⟩, top, s.top_, k + 1⟩
  | v :: env, s, k =>
      let top := s.top_
      let heap := s.heap.set i link top
      -- meanwhile top_ has become v: the compare-and-swap returns v
      if v = top then ⟨⟨newTop, heap⟩, top, v, k + 1⟩
      else cas_retry_loop i link newTop env ⟨v, heap⟩ (k + 1)

/-- Modelled from the spec: `QwSingleLinkNodeInfo.h` is not among the sources.
`check_node_is_unlinked(node)`: "fatal failure if the slot is non-null", compiled
in validation builds only. Returns the fault raised, if any. -/
def check_node_is_unlinked (B : Build) (i : Nat) (h : Heap) (n : Nat) : Option Fault :=
  if B.validateNodeLinks then
    if n = 0 then some .nullDeref
    else if h n i ≠ 0 then some .nodeLinked
    else none
  else none

/-- Modelled from the spec: `QwSingleLinkNodeInfo.h` is not among the sources.
`clear_node_link_for_validation(node)`: "sets the slot to null after removal
(validation builds only)". -/
def clear_node_link_for_validation (B : Build) (i : Nat) (h : Heap) (n : Nat) : Heap :=
  if B.validateNodeLinks then h.set i n 0 else h

/-- `void push( node_ptr_type node )`, run against the interference `env`. -/
def push (B : Build) (i node : Nat) (env : List Nat) (s : StackState) :
    Outcome StackState Unit :=
  match check_node_is_unlinked B i s.heap node with
  | some f => .fatal f s
  | none =>
    if node = 0 then .fatal .nullDeref s
    else .ok () (cas_retry_loop i node node env s 0).state

/-- `void push( node_ptr_type node, bool& wasEmpty )`; the result is `wasEmpty`. -/
def push_wasEmpty (B : Build) (i node : Nat) (env : List Nat) (s : StackState) :
    Outcome StackState Bool :=
  match check_node_is_unlinked B i s.heap node with
  | some f => .fatal f s
  | none =>
    if node = 0 then .fatal .nullDeref s
    else
      let r := cas_retry_loop i node node env s 0
      .ok (r.top == 0) r.state                  -- wasEmpty = (top==0)

/-- Static type of the expression that the retry loops assign to the local
`node_ptr_type top`. -/
inductive LoadType where
  /-- `node_ptr_type`: a pointer to a node -/
  | node_ptr
  /-- `node_ptr_type*`: a pointer to a pointer to a node -/
  | node_ptr_ptr
  deriving DecidableEq, Repr

/-- `static_cast<node_ptr_type>(mint_load_ptr_relaxed(&top_))`, lines 67 and 82. -/
def push_load_type : LoadType := .node_ptr

/-- `static_cast<node_ptr_type*>(mint_load_ptr_relaxed(&top_))`, line 100. -/
def push_multiple_load_type : LoadType := .node_ptr_ptr

/-- Whether `top = e` is well-formed for `node_ptr_type top` and `e` of type `t`.
A node has a `links_` member, so `node_ptr_type` points to a class type, and C++
converts no `node_ptr_type*` to it implicitly. -/
def assignable_to_top : LoadType → Bool
  | .node_ptr => true
  | .node_ptr_ptr => false

/-- The statements of `push_multiple( front, back )`, lines 96 to 106, as they run
in an instantiation in which the assignment of line 100 is well-formed. -/
def push_multiple_body (B : Build) (i front back : Nat) (env : List Nat)
    (s : StackState) : Outcome StackState Unit :=
  match check_node_is_unlinked B i s.heap back with
  | some f => .fatal f s
  | none =>
    if back = 0 then .fatal .nullDeref s
    else .ok () (cas_retry_loop i back front env s 0).state

/-- `void push_multiple( node_ptr_type front, node_ptr_type back )`. Line 100
assigns an expression of type `node_ptr_type*` to `node_ptr_type top`; where that
is ill-formed the member function cannot be instantiated and a call has no run. -/
def push_multiple (B : Build) (i front back : Nat) (env : List Nat) (s : StackState) :
    Option (Outcome StackState Unit) :=
  if assignable_to_top push_multiple_load_type then
    some (push_multiple_body B i front back env s)
  else none

/-- `bool empty() const`: a full-width load of `top_` compared with null. -/
def StackState.empty (s : StackState) : Bool := s.top_ == 0

/-- `_InterlockedExchange( (LONG*)target, (LONG)value )` on the pointer cell
`cell`: `LONG` is 32 bits wide, so the exchange reads and writes the four bytes at
the cell's address (the low half of a little-endian 64-bit cell) and leaves any
further bytes of the cell alone. Returns the previous `LONG` (as its 32-bit
pattern) and the new content of the cell. -/
def InterlockedExchange (cell value : Nat) : Nat × Nat :=
  (cell % 2 ^ 32, cell / 2 ^ 32 * 2 ^ 32 + value % 2 ^ 32)

/-- The cast `(node_ptr_type)` applied to a `LONG` given by its 32-bit pattern:
the identity where pointers have 32 bits, sign extension where they have 64. -/
def long_to_ptr : PtrSize → Nat → Nat
  | .four, x => x
  | .eight, x => if x < 2 ^ 31 then x else x + (2 ^ 64 - 2 ^ 32)

/-- `node_ptr_type pop_all()`. -/
def pop_all (P : PtrSize) (s : StackState) : Nat × StackState :=
  let x := InterlockedExchange s.top_ 0
  (long_to_ptr P x.1, ⟨x.2, s.heap⟩)

/-- The nodes `L` are linked through slot `i` starting at `p` and end in null. -/
def IsChain (i : Nat) (h : Heap) : Nat → List Nat → Prop
  | p, [] => p = 0
  | p, x :: xs => p = x ∧ x ≠ 0 ∧ IsChain i h (h x i) xs

/-- Follow slot `i` from `p` for at most `fuel` steps, collecting the nodes met. -/
def walk (i : Nat) (h : Heap) : Nat → Nat → List Nat
  | 0, _ => []
  | fuel + 1, p => if p = 0 then [] else p :: walk i h fuel (h p i)

/-- Push the nodes of `ns` one after another, without interference; stops at the
first push that fails. -/
def push_seq (B : Build) (i : Nat) : List Nat → StackState → Outcome StackState Unit
  | [], s => .ok () s
  | n :: ns, s =>
    match push B i n [] s with
    | .ok _ s1 => push_seq B i ns s1
    | .fatal f s1 => .fatal f s1

/-! ## QwSList

The list object is its single field `front_`. `before_begin()` returns the pointer
`bb` computed from the address of `front_` so that `nodeinfo::next_ptr(bb)` is
`front_` itself ("pretend our front_ field is actually the next link field in a
node struct"). The memory cell of `front_` is therefore the cell `h bb i`, and a
list is identified by its `bb`. -/

namespace QwSList

/-- The field `front_` of the list whose `before_begin()` pointer is `bb`. -/
def front_ (i bb : Nat) (h : Heap) : Nat := h bb i

/-- `QwSList() : front_( 0 )`. -/
def init (i bb : Nat) (h : Heap) : Heap := h.set i bb 0

/-- `explicit QwSList( node_ptr_type front ) : front_( front )`. -/
def init_from (i bb front : Nat) (h : Heap) : Heap := h.set i bb front

/-- `bool empty() const`. -/
def empty (i bb : Nat) (h : Heap) : Bool := front_ i bb h == 0

/-- `bool size_is_1() const`. -/
def size_is_1 (i bb : Nat) (h : Heap) : Bool :=
  front_ i bb h != 0 && h (front_ i bb h) i == 0

/-- `bool size_is_greater_than_1() const`. -/
def size_is_greater_than_1 (i bb : Nat) (h : Heap) : Bool :=
  front_ i bb h != 0 && h (front_ i bb h) i != 0

/-- `node_ptr_type front()`. -/
def front (i bb : Nat) (h : Heap) : Nat := front_ i bb h

/-- `void push_front( node_ptr_type n )`. -/
def push_front (B : Build) (i bb n : Nat) (h : Heap) : Outcome Heap Unit :=
  match check_node_is_unlinked B i h n with
  | some f => .fatal f h
  | none =>
    if n = 0 then .fatal .nullDeref h
    else
      let h1 := h.set i n (front_ i bb h)       -- nodeinfo::next_ptr(n) = front_
      .ok () (h1.set i bb n)                    -- front_ = n

/-- `node_ptr_type pop_front()`. -/
def pop_front (B : Build) (i bb : Nat) (h : Heap) : Outcome Heap Nat :=
  if B.asserts && empty i bb h then .fatal .assertFailed h   -- assert( !empty() )
  else
    let result := front_ i bb h                 -- node_ptr_type result = front_
    if result = 0 then .fatal .nullDeref h
    else
      let h1 := h.set i bb (h result i)         -- front_ = nodeinfo::next_ptr(front_)
      .ok result (clear_node_link_for_validation B i h1 result)

/-- `void insert_after( node_ptr_type before, node_ptr_type n )`. -/
def insert_after (B : Build) (i before n : Nat) (h : Heap) : Outcome Heap Unit :=
  if B.asserts && before == 0 then .fatal .assertFailed h    -- assert( before != 0 )
  else if B.asserts && n == 0 then .fatal .assertFailed h    -- assert( n != 0 )
  else
    match check_node_is_unlinked B i h n with
    | some f => .fatal f h
    | none =>
      if before = 0 ∨ n = 0 then .fatal .nullDeref h
      else
        let h1 := h.set i n (h before i)        -- next_ptr(n) = next_ptr(before)
        .ok () (h1.set i before n)              -- next_ptr(before) = n

/-- `node_ptr_type remove_after( node_ptr_type before )`. -/
def remove_after (B : Build) (i before : Nat) (h : Heap) : Outcome Heap Nat :=
  if before = 0 then .fatal .nullDeref h
  else if B.asserts && h before i == 0 then .fatal .assertFailed h
  else
    let result := h before i                    -- result = next_ptr(before)
    if result = 0 then .fatal .nullDeref h
    else
      let h1 := h.set i before (h result i)     -- next_ptr(before) = next_ptr(result)
      .ok result (clear_node_link_for_validation B i h1 result)

/-- `class iterator`: a wrapped node pointer. -/
structure iterator where
  /-- `node_ptr_type p_` -/
  p_ : Nat
  deriving DecidableEq, Repr

/-- `iterator& operator++ ()`: the iterator after the step. -/
def iterator.incr (i : Nat) (h : Heap) (it : iterator) : Except Fault iterator :=
  if it.p_ = 0 then .error .nullDeref
  else .ok ⟨h it.p_ i⟩                          -- p_ = nodeinfo::next_ptr(p_)

/-- `iterator operator++ (int)`: the returned copy and the iterator after the step. -/
def iterator.post_incr (i : Nat) (h : Heap) (it : iterator) :
    Except Fault (iterator × iterator) :=
  match it.incr i h with
  | .ok it1 => .ok (it, it1)
  | .error f => .error f

/-- `node_ptr_type operator*()`. -/
def iterator.deref (it : iterator) : Nat := it.p_

/-- `iterator before_begin()`. -/
def before_begin (bb : Nat) : iterator := ⟨bb⟩

/-- `iterator begin() const`. -/
def begin_ (i bb : Nat) (h : Heap) : iterator := ⟨front_ i bb h⟩

/-- `const iterator end() const`. -/
def end_ : iterator := ⟨0⟩

/-- `static node_ptr_type next( node_ptr_type n )`. -/
def next (i : Nat) (h : Heap) (n : Nat) : Except Fault Nat :=
  if n = 0 then .error .nullDeref else .ok (h n i)

/-- `void insert_after( iterator before, node_ptr_type n )`. -/
def insert_after_iter (B : Build) (i : Nat) (before : iterator) (n : Nat) (h : Heap) :
    Outcome Heap Unit :=
  insert_after B i before.deref n h

/-- `void remove_after( iterator before )`. -/
def remove_after_iter (B : Build) (i : Nat) (before : iterator) (h : Heap) :
    Outcome Heap Unit :=
  match remove_after B i before.deref h with
  | .ok _ h1 => .ok () h1
  | .fatal f h1 => .fatal f h1

/-- `iterator erase_after( iterator before )`. -/
def erase_after (B : Build) (i : Nat) (before : iterator) (h : Heap) :
    Outcome Heap iterator :=
  if B.asserts && before == end_ then .fatal .assertFailed h -- assert( before != end() )
  else
    let before_node_ptr := before.deref
    if before_node_ptr = 0 then .fatal .nullDeref h
    else
      let erased_node_ptr := h before_node_ptr i
      if erased_node_ptr = 0 then .fatal .nullDeref h
      else
        let h1 := h.set i before_node_ptr (h erased_node_ptr i)
        let h2 := clear_node_link_for_validation B i h1 erased_node_ptr
        .ok ⟨h2 before_node_ptr i⟩ h2

/-- `void swap( QwSList& other )`, for the lists at `a` and `b`:
`std::swap( front_, other.front_ )`. -/
def swap (i a b : Nat) (h : Heap) : Heap :=
  (h.set i a (front_ i b h)).set i b (front_ i a h)

/-- The loop `while( !empty() ) pop_front();` of the validated `clear()`, run for
at most `fuel` iterations; `none` when the fuel does not suffice. -/
def clear_loop (B : Build) (i bb : Nat) : Nat → Heap → Option (Outcome Heap Unit)
  | 0, h => if empty i bb h then some (.ok () h) else none
  | fuel + 1, h =>
    if empty i bb h then some (.ok () h)
    else
      match pop_front B i bb h with
      | .ok _ h1 => clear_loop B i bb fuel h1
      | .fatal f h1 => some (.fatal f h1)

/-- `void clear()`. -/
def clear (B : Build) (i bb : Nat) (fuel : Nat) (h : Heap) : Option (Outcome Heap Unit) :=
  if B.validateNodeLinks then clear_loop B i bb fuel h
  else some (.ok () (h.set i bb 0))             -- front_ = 0

/-- The list at `bb` holds exactly the nodes `L`, in this order: they are linked
from `front_` to null, and none of them is the `before_begin()` pseudo node. -/
def Holds (i bb : Nat) (h : Heap) (L : List Nat) : Prop :=
  bb ≠ 0 ∧ bb ∉ L ∧ L.Nodup ∧ IsChain i h (front_ i bb h) L

end QwSList

/-- Free function `swap( a, b )`: `a.swap(b)`. -/
def swap (i a b : Nat) (h : Heap) : Heap := QwSList.swap i a b h

/-! ## Other link slots -/

/-- The memory that has slot `i` of every node from `h` and every other slot from
`g`. -/
def Heap.others (i : Nat) (g h : Heap) : Heap :=
  fun m j => if j = i then h m j else g m j

/-- The stack memory with every slot other than `i` taken from `g`. -/
def StackState.others (i : Nat) (g : Heap) (s : StackState) : StackState :=
  ⟨s.top_, Heap.others i g s.heap⟩

/-- Apply `f` to the memory an outcome carries. -/
def Outcome.mapState {σ τ α : Type} (f : σ → τ) : Outcome σ α → Outcome τ α
  | .ok r s => .ok r (f s)
  | .fatal e s => .fatal e (f s)

/-! ## The randomised test: list calls against a reference sequence -/

/-- The walk of `randomisedInsert` / `randomisedRemove`:
`at = list.front(); for( i < k ) at = list.next(at);`, started at `p`. -/
def QwSList.node_at (i : Nat) (h : Heap) : Nat → Nat → Except Fault Nat
  | 0, p => .ok p
  | k + 1, p =>
    match QwSList.next i h p with
    | .ok q => QwSList.node_at i h k q
    | .error f => .error f

/-- A call on the list, as the randomised test issues it. -/
inductive ListOp where
  /-- `list.push_front( n )` -/
  | push_front (n : Nat)
  /-- `list.insert_after( at, n )`, `at` being `k` steps of `next` from `front()` -/
  | insert_after (k n : Nat)
  /-- `list.pop_front()` -/
  | pop_front
  /-- `list.remove_after( at )`, `at` being `k` steps of `next` from `front()` -/
  | remove_after (k : Nat)
  deriving DecidableEq, Repr

/-- Run one call on the list at `bb`; the result is the node a removal returns. -/
def run_op (B : Build) (i bb : Nat) : ListOp → Heap → Outcome Heap (Option Nat)
  | .push_front n, h =>
    match QwSList.push_front B i bb n h with
    | .ok _ h1 => .ok none h1
    | .fatal f h1 => .fatal f h1
  | .insert_after k n, h =>
    match QwSList.node_at i h k (QwSList.front i bb h) with
    | .error f => .fatal f h
    | .ok pos =>
      match QwSList.insert_after B i pos n h with
      | .ok _ h1 => .ok none h1
      | .fatal f h1 => .fatal f h1
  | .pop_front, h =>
    match QwSList.pop_front B i bb h with
    | .ok r h1 => .ok (some r) h1
    | .fatal f h1 => .fatal f h1
  | .remove_after k, h =>
    match QwSList.node_at i h k (QwSList.front i bb h) with
    | .error f => .fatal f h
    | .ok pos =>
      match QwSList.remove_after B i pos h with
      | .ok r h1 => .ok (some r) h1
      | .fatal f h1 => .fatal f h1

/-- The reference model of the spec: a plain sequence updated by insert-at-index
and remove-at-index; the first component is the element a removal takes out. -/
def model_op : ListOp → List Nat → Option Nat × List Nat
  | .push_front n, M => (none, M.insertIdx 0 n)
  | .insert_after k n, M => (none, M.insertIdx (k + 1) n)
  | .pop_front, M => (M[0]?, M.eraseIdx 0)
  | .remove_after k, M => (M[k + 1]?, M.eraseIdx (k + 1))

/-- Precondition of a call when the list holds `M`: an inserted node is non-null,
is a node (not the pseudo node), is not in the list and is unlinked; the position
of an insertion exists; the position of a removal has a successor. -/
def op_pre (i bb : Nat) (h : Heap) (M : List Nat) : ListOp → Prop
  | .push_front n => n ≠ 0 ∧ n ≠ bb ∧ n ∉ M ∧ h n i = 0
  | .insert_after k n => k < M.length ∧ n ≠ 0 ∧ n ≠ bb ∧ n ∉ M ∧ h n i = 0
  | .pop_front => M ≠ []
  | .remove_after k => k + 1 < M.length

/-- Running `ops` from memory `h` agrees with the model started at `M`: the list
holds `M` and the walk from `front()` lists `M`; and if the first call meets its
precondition, it returns what the model returns and the rest of the run agrees
with the model from there. -/
def Refines (B : Build) (i bb : Nat) : List ListOp → Heap → List Nat → Prop
  | [], h, M =>
    QwSList.Holds i bb h M ∧ walk i h (M.length + 1) (QwSList.front i bb h) = M
  | op :: ops, h, M =>
    (QwSList.Holds i bb h M ∧ walk i h (M.length + 1) (QwSList.front i bb h) = M) ∧
    (op_pre i bb h M op →
      ∃ h1, run_op B i bb op h = .ok (model_op op M).1 h1 ∧
        Refines B i bb ops h1 (model_op op M).2)

/-! ## Iteration and the retry loop, counted -/

/-- `j` applications of the prefix `++` to an iterator. -/
def QwSList.iterator.advance (i : Nat) (h : Heap) :
    Nat → QwSList.iterator → Except Fault QwSList.iterator
  | 0, it => .ok it
  | j + 1, it =>
    match it.incr i h with
    | .ok it1 => QwSList.iterator.advance i h j it1
    | .error f => .error f

/-- `j` applications of the postfix `++`: the copies it returned, in order, and the
iterator after the last step. -/
def QwSList.iterator.post_advance (i : Nat) (h : Heap) :
    Nat → QwSList.iterator → Except Fault (List QwSList.iterator × QwSList.iterator)
  | 0, it => .ok ([], it)
  | j + 1, it =>
    match it.post_incr i h with
    | .ok (old, it1) =>
      match QwSList.iterator.post_advance i h j it1 with
      | .ok (olds, it2) => .ok (old :: olds, it2)
      | .error f => .error f
    | .error f => .error f

/-- The list at `bb` is well formed: its chain from `front_` is finite, ends in
null and holds no node twice (and does not run through the pseudo node). -/
def QwSList.WellFormed (i bb : Nat) (h : Heap) : Prop :=
  ∃ L, QwSList.Holds i bb h L

end QueueWorld

namespace QueueWorld

/-! ## Link slots and chains -/

@[simp] theorem Heap.set_same (h : Heap) (i n v : Nat) : (h.set i n v) n i = v := by
  simp [Heap.set]

theorem Heap.set_ne_node (h : Heap) (i n v m j : Nat) (hm : m ≠ n) :
    (h.set i n v) m j = h m j := by
  simp [Heap.set, hm]

theorem Heap.set_ne_slot (h : Heap) (i n v m j : Nat) (hj : j ≠ i) :
    (h.set i n v) m j = h m j := by
  simp [Heap.set, hj]

/-- Writing a slot of a node outside a chain leaves the chain as it is. -/
theorem IsChain.set_frame (i j n v : Nat) (h : Heap) :
    ∀ (L : List Nat) (p : Nat), n ∉ L → IsChain i h p L → IsChain i (h.set j n v) p L := by
  intro L
  induction L with
  | nil => intro p _ hc; exact hc
  | cons x xs ih =>
    intro p hn hc
    obtain ⟨hp, hx, hrest⟩ := hc
    have hxn : x ≠ n := fun e => hn (by simp [e])
    refine ⟨hp, hx, ?_⟩
    rw [Heap.set_ne_node h j n v x i hxn]
    exact ih _ (fun hmem => hn (List.mem_cons_of_mem _ hmem)) hrest

/-- Writing a slot other than `i` leaves every chain through slot `i` as it is. -/
theorem IsChain.frame_other_slot (i j n v : Nat) (h : Heap) (hj : i ≠ j) :
    ∀ (L : List Nat) (p : Nat), IsChain i h p L → IsChain i (h.set j n v) p L := by
  intro L
  induction L with
  | nil => intro p hc; exact hc
  | cons x xs ih =>
    intro p hc
    obtain ⟨hp, hx, hrest⟩ := hc
    refine ⟨hp, hx, ?_⟩
    rw [Heap.set_ne_slot h j n v x i hj]
    exact ih _ hrest

/-- No node of a chain is null. -/
theorem IsChain.ne_zero (i : Nat) (h : Heap) :
    ∀ (L : List Nat) (p : Nat), IsChain i h p L → ∀ x ∈ L, x ≠ 0 := by
  intro L
  induction L with
  | nil => intro p _ x hx; simp at hx
  | cons y ys ih =>
    intro p hc x hx
    obtain ⟨_, hy, hrest⟩ := hc
    rcases List.mem_cons.mp hx with e | hmem
    · rw [e]; exact hy
    · exact ih _ hrest x hmem

/-- A chain is determined by its first pointer. -/
theorem IsChain.unique (i : Nat) (h : Heap) :
    ∀ (L M : List Nat) (p : Nat), IsChain i h p L → IsChain i h p M → L = M := by
  intro L
  induction L with
  | nil =>
    intro M p hL hM
    cases M with
    | nil => rfl
    | cons y ys =>
      obtain ⟨hp, hy, _⟩ := hM
      exact absurd (hp.symm.trans hL) hy
  | cons x xs ih =>
    intro M p hL hM
    obtain ⟨hp, hx, hrest⟩ := hL
    cases M with
    | nil => exact absurd (hp.symm.trans hM) hx
    | cons y ys =>
      obtain ⟨hq, _, hrest2⟩ := hM
      have hxy : x = y := hp.symm.trans hq
      subst hxy
      rw [ih ys _ hrest hrest2]

/-- With enough fuel, walking from the head of a chain lists the chain. -/
theorem walk_of_isChain (i : Nat) (h : Heap) :
    ∀ (L : List Nat) (p fuel : Nat), IsChain i h p L → L.length ≤ fuel →
      walk i h (fuel + 1) p = L := by
  intro L
  induction L with
  | nil => intro p fuel hc _; simp [walk, show p = 0 from hc]
  | cons x xs ih =>
    intro p fuel hc hlen
    obtain ⟨hp, hx, hrest⟩ := hc
    cases fuel with
    | zero => simp at hlen
    | succ f =>
      have hl : xs.length ≤ f := by simpa using hlen
      rw [walk, if_neg (by rw [hp]; exact hx), hp, ih _ f hrest hl]

/-! ## The stack's elementary steps -/

theorem cas_retry_loop_nil (i link newTop : Nat) (s : StackState) (k : Nat) :
    cas_retry_loop i link newTop [] s k =
      ⟨⟨newTop, s.heap.set i link s.top_⟩, s.top_, s.top_, k + 1⟩ := rfl

theorem check_node_is_unlinked_none (B : Build) (i : Nat) (h : Heap) (n : Nat)
    (hn : n ≠ 0) (hu : h n i = 0) : check_node_is_unlinked B i h n = none := by
  simp [check_node_is_unlinked, hn, hu]

theorem push_ok (B : Build) (i node : Nat) (env : List Nat) (s : StackState)
    (hn : node ≠ 0) (hu : s.heap node i = 0) :
    push B i node env s = .ok () (cas_retry_loop i node node env s 0).state := by
  simp [push, check_node_is_unlinked_none B i s.heap node hn hu, hn]

/-- No call of `push_multiple` has a run: line 100 is ill-formed whatever the
arguments, the build and the interference are. -/
theorem push_multiple_ill_formed (B : Build) (i front back : Nat) (env : List Nat)
    (s : StackState) : push_multiple B i front back env s = none := by
  simp [push_multiple, assignable_to_top, push_multiple_load_type]

/-- Where `LONG` has the width of a pointer, `pop_all` hands over `top_` and resets it. -/
theorem pop_all_four (s : StackState) (hfit : s.top_ < 2 ^ 32) :
    pop_all .four s = (s.top_, ⟨0, s.heap⟩) := by
  have h1 : s.top_ % 2 ^ 32 = s.top_ := Nat.mod_eq_of_lt hfit
  have h2 : s.top_ / 2 ^ 32 = 0 := Nat.div_eq_of_lt hfit
  show (long_to_ptr .four (s.top_ % 2 ^ 32),
      (⟨s.top_ / 2 ^ 32 * 2 ^ 32 + 0 % 2 ^ 32, s.heap⟩ : StackState)) = _
  rw [h1, h2]
  rfl

/-- With 64-bit pointers, every `top_` at or above 4 GB (and below 2^63) is returned
wrongly by `pop_all`, and the stack is not empty afterwards. -/
theorem pop_all_eight_high (s : StackState) (hlo : 2 ^ 32 ≤ s.top_)
    (hhi : s.top_ < 2 ^ 63) :
    (pop_all .eight s).1 ≠ s.top_ ∧ (pop_all .eight s).2.empty = false := by
  have hdiv : 1 ≤ s.top_ / 2 ^ 32 := (Nat.one_le_div_iff (by norm_num)).mpr hlo
  have hmod : s.top_ % 2 ^ 32 < 2 ^ 32 := Nat.mod_lt _ (by norm_num)
  constructor
  · show long_to_ptr .eight (s.top_ % 2 ^ 32) ≠ s.top_
    simp only [long_to_ptr]
    by_cases hlow : s.top_ % 2 ^ 32 < 2 ^ 31
    · rw [if_pos hlow]; omega
    · rw [if_neg hlow]; omega
  · show ((s.top_ / 2 ^ 32 * 2 ^ 32 + 0 % 2 ^ 32) == 0) = false
    have : s.top_ / 2 ^ 32 * 2 ^ 32 + 0 % 2 ^ 32 ≠ 0 := by omega
    simpa using this

/-- Pushing distinct unlinked nodes onto a stack holding the chain `S` stacks them,
last pushed first, on top of `S`, and changes no other slot. -/
theorem push_seq_chain (B : Build) (i : Nat) :
    ∀ (ns : List Nat) (s : StackState) (S : List Nat),
      IsChain i s.heap s.top_ S → ns.Nodup →
      (∀ n ∈ ns, n ≠ 0 ∧ s.heap n i = 0 ∧ n ∉ S) →
      ∃ s1, push_seq B i ns s = .ok () s1 ∧
        IsChain i s1.heap s1.top_ (ns.reverse ++ S) ∧
        (∀ m j, (j ≠ i ∨ m ∉ ns) → s1.heap m j = s.heap m j) := by
  intro ns
  induction ns with
  | nil =>
    intro s S hc _ _
    exact ⟨s, rfl, by simpa using hc, fun _ _ _ => rfl⟩
  | cons n ns ih =>
    intro s S hc hnd hns
    obtain ⟨hn0, hnu, hnS⟩ := hns n (by simp)
    have hnd2 := List.nodup_cons.mp hnd
    have hstep : push B i n [] s = .ok () ⟨n, s.heap.set i n s.top_⟩ := by
      rw [push_ok B i n [] s hn0 hnu]; rfl
    have hc1 : IsChain i (s.heap.set i n s.top_) n (n :: S) := by
      refine ⟨rfl, hn0, ?_⟩
      rw [Heap.set_same]
      exact IsChain.set_frame i i n s.top_ s.heap S s.top_ hnS hc
    have hns1 : ∀ m ∈ ns, m ≠ 0 ∧ (s.heap.set i n s.top_) m i = 0 ∧ m ∉ n :: S := by
      intro m hm
      obtain ⟨hm0, hmu, hmS⟩ := hns m (List.mem_cons_of_mem _ hm)
      have hmn : m ≠ n := fun e => hnd2.1 (e ▸ hm)
      refine ⟨hm0, ?_, ?_⟩
      · rw [Heap.set_ne_node _ _ _ _ _ _ hmn]; exact hmu
      · intro hmem
        rcases List.mem_cons.mp hmem with e | e
        · exact hmn e
        · exact hmS e
    obtain ⟨s1, hrun, hchain, hframe⟩ := ih ⟨n, s.heap.set i n s.top_⟩ (n :: S) hc1 hnd2.2 hns1
    refine ⟨s1, ?_, ?_, ?_⟩
    · simp only [push_seq, hstep]; exact hrun
    · simpa [List.reverse_cons, List.append_assoc] using hchain
    · intro m j hmj
      have h1 : s1.heap m j = (s.heap.set i n s.top_) m j := by
        apply hframe
        rcases hmj with hj | hm
        · exact Or.inl hj
        · exact Or.inr (fun hmem => hm (List.mem_cons_of_mem _ hmem))
      rw [h1]
      rcases hmj with hj | hm
      · exact Heap.set_ne_slot _ _ _ _ _ _ hj
      · exact Heap.set_ne_node _ _ _ _ _ _ (fun e => hm (by simp [e]))

/-- Where `LONG` is as wide as a pointer (32-bit pointers) the drain after a burst
of pushes onto an empty stack returns the last node pushed, the chain from it is the
reverse of the push order, and the stack is empty again. -/
theorem push_seq_pop_all_lifo_four (B : Build) (i : Nat) (ns : List Nat) (h : Heap)
    (hnd : ns.Nodup) (hns : ∀ n ∈ ns, n ≠ 0 ∧ h n i = 0 ∧ n < 2 ^ 32) :
    ∃ s1, push_seq B i ns (QwMPMCPopAllLifoStack h) = .ok () s1 ∧
      (pop_all .four s1).1 = ns.reverse.headD 0 ∧
      IsChain i (pop_all .four s1).2.heap (pop_all .four s1).1 ns.reverse ∧
      (pop_all .four s1).2.top_ = 0 := by
  obtain ⟨s1, hrun, hchain, _⟩ := push_seq_chain B i ns (QwMPMCPopAllLifoStack h) []
    rfl hnd (fun n hn => ⟨(hns n hn).1, (hns n hn).2.1, by simp⟩)
  rw [List.append_nil] at hchain
  have htop : s1.top_ = ns.reverse.headD 0 := by
    cases hr : ns.reverse with
    | nil => rw [hr] at hchain; exact hchain
    | cons x xs => rw [hr] at hchain; exact hchain.1
  have hfit : s1.top_ < 2 ^ 32 := by
    rw [htop]
    cases hr : ns.reverse with
    | nil => simp
    | cons x xs =>
      have hx : x ∈ ns := by
        have : x ∈ ns.reverse := by rw [hr]; simp
        exact List.mem_reverse.mp this
      simpa using (hns x hx).2.2
  refine ⟨s1, hrun, ?_, ?_, ?_⟩
  · rw [pop_all_four s1 hfit]; exact htop
  · rw [pop_all_four s1 hfit]; exact hchain
  · rw [pop_all_four s1 hfit]

/-- C1, evaluated with 64-bit pointers: two nodes at 0x100000008 and 0x100000010
are pushed onto an empty stack, so `top_` is the second node; `pop_all()` exchanges
only the low 32 bits of `top_` and returns the pointer 0x10, which is neither node,
and `top_` keeps the high half 0x100000000. -/
theorem lifo_drain_truncated_with_64bit_pointers :
    ∃ s1, push_seq Build.validated 0 [4294967304, 4294967312]
        (QwMPMCPopAllLifoStack Heap.unlinked) = .ok () s1 ∧
      s1.top_ = 4294967312 ∧
      walk 0 s1.heap 3 s1.top_ = [4294967312, 4294967304] ∧
      (pop_all .eight s1).1 = 16 ∧
      (pop_all .eight s1).2.top_ = 4294967296 := by
  refine ⟨⟨4294967312, Heap.set (Heap.set Heap.unlinked 0 4294967304 0) 0 4294967312
    4294967304⟩, ?_, rfl, ?_, ?_, ?_⟩
  · simp [push_seq, push, check_node_is_unlinked, Build.validated, cas_retry_loop,
      QwMPMCPopAllLifoStack, Heap.set, Heap.unlinked]
  · simp [walk, Heap.set, Heap.unlinked]
  · simp [pop_all, InterlockedExchange, long_to_ptr]
  · simp [pop_all, InterlockedExchange]

/-- Draining a newly constructed stack returns null and leaves it empty, whatever
the pointer width. -/
theorem pop_all_new_stack (P : PtrSize) (h : Heap) :
    pop_all P (QwMPMCPopAllLifoStack h) = (0, QwMPMCPopAllLifoStack h) := by
  cases P <;> simp [pop_all, InterlockedExchange, long_to_ptr, QwMPMCPopAllLifoStack]

/-- With 32-bit pointers a drain leaves the stack empty and a second drain returns
null. -/
theorem pop_all_resets_four (s : StackState) (hfit : s.top_ < 2 ^ 32) :
    (pop_all .four s).2.empty = true ∧ (pop_all .four (pop_all .four s).2).1 = 0 := by
  rw [pop_all_four s hfit]
  exact ⟨rfl, by rw [pop_all_four _ (by simp)]⟩

/-- C2, evaluated with 64-bit pointers: a stack whose `top_` is the node at
0x100000008 is not empty after `pop_all()`; `top_` still holds 0x100000000. -/
theorem pop_all_leaves_high_half_with_64bit_pointers :
    (pop_all .eight ⟨4294967304, Heap.unlinked⟩).2.empty = false ∧
    (pop_all .eight ⟨4294967304, Heap.unlinked⟩).2.top_ = 4294967296 := by
  constructor <;> simp [pop_all, InterlockedExchange, StackState.empty]

/-- C3, evaluated: for the pre-linked chain 1 -> 2 -> null and a stack holding
node 3, the call `push_multiple(1, 2)` has no run, in either build, because the
assignment of line 100 is ill-formed, so nothing is spliced onto the stack; the
load of `push`, cast to `node_ptr_type`, is well-formed, and `push(2)` on the same
memory runs and makes node 2 the top. -/
theorem push_multiple_splices_nothing :
    push_multiple Build.validated 0 1 2 [] ⟨3, Heap.set Heap.unlinked 0 1 2⟩ = none ∧
    push_multiple Build.unvalidated 0 1 2 [] ⟨3, Heap.set Heap.unlinked 0 1 2⟩ = none ∧
    assignable_to_top push_multiple_load_type = false ∧
    assignable_to_top push_load_type = true ∧
    (∃ s1, push Build.validated 0 2 [] ⟨3, Heap.set Heap.unlinked 0 1 2⟩ = .ok () s1 ∧
      s1.top_ = 2 ∧ s1.heap 2 0 = 3) := by
  refine ⟨by simp [push_multiple, assignable_to_top, push_multiple_load_type],
    by simp [push_multiple, assignable_to_top, push_multiple_load_type],
    rfl, rfl, ⟨⟨2, Heap.set (Heap.set Heap.unlinked 0 1 2) 0 2 3⟩, ?_, rfl, ?_⟩⟩
  · simp [push, check_node_is_unlinked, Build.validated, cas_retry_loop, Heap.set,
      Heap.unlinked]
  · simp [Heap.set]

/-- C4, evaluated on the run of a single thread with 64-bit pointers: the node at
0x100000020 is pushed and the stack is drained. The pointer returned is 0x20 and
`top_` is left at 0x100000000, so the pushed node is neither in what `pop_all()`
returned nor in what the stack still holds: it is lost. -/
theorem pushed_node_lost_with_64bit_pointers :
    ∃ s1, push Build.validated 0 4294967328 [] (QwMPMCPopAllLifoStack Heap.unlinked)
        = .ok () s1 ∧
      s1.top_ = 4294967328 ∧
      4294967328 ∉ walk 0 (pop_all .eight s1).2.heap 8 (pop_all .eight s1).1 ∧
      4294967328 ∉ walk 0 (pop_all .eight s1).2.heap 8 (pop_all .eight s1).2.top_ := by
  refine ⟨⟨4294967328, Heap.set Heap.unlinked 0 4294967328 0⟩, ?_, rfl, ?_, ?_⟩
  · simp [push, check_node_is_unlinked, Build.validated, cas_retry_loop,
      QwMPMCPopAllLifoStack, Heap.set, Heap.unlinked]
  · simp [pop_all, InterlockedExchange, long_to_ptr, walk, Heap.set, Heap.unlinked]
  · simp [pop_all, InterlockedExchange, walk, Heap.set, Heap.unlinked]

/-- In a build with link validation, `push` (both overloads) on a non-null node
stops fatally exactly when the node's next slot is non-null, and then stops at the
check with the stack and every node untouched, whatever `top_` and the interference
are. -/
theorem push_link_check (B : Build) (hB : B.validateNodeLinks = true)
    (i node : Nat) (env : List Nat) (s : StackState) (hn : node ≠ 0) :
    ((∃ f s1, push B i node env s = .fatal f s1) ↔ s.heap node i ≠ 0) ∧
    (s.heap node i ≠ 0 → push B i node env s = .fatal .nodeLinked s) ∧
    ((∃ f s1, push_wasEmpty B i node env s = .fatal f s1) ↔ s.heap node i ≠ 0) ∧
    (s.heap node i ≠ 0 → push_wasEmpty B i node env s = .fatal .nodeLinked s) := by
  refine ⟨?_, ?_, ?_, ?_⟩
  · by_cases hu : s.heap node i = 0
    · simp [push, check_node_is_unlinked, hB, hn, hu]
    · simp [push, check_node_is_unlinked, hB, hn, hu]
  · intro hu; simp [push, check_node_is_unlinked, hB, hn, hu]
  · by_cases hu : s.heap node i = 0
    · simp [push_wasEmpty, check_node_is_unlinked, hB, hn, hu]
    · simp [push_wasEmpty, check_node_is_unlinked, hB, hn, hu]
  · intro hu; simp [push_wasEmpty, check_node_is_unlinked, hB, hn, hu]

/-- C7, evaluated in the validated build: node 6 is linked (its next slot holds 3).
`push(6)` and `push(6, wasEmpty)` stop at the unlinked check with the memory
untouched, as the claim says; `push_multiple(5, 6)`, whose back node is the linked
node 6, does not stop at the check: it has no run at all, because line 100 is
ill-formed. Nor has `push_multiple(6, 5)`, whose back node 5 is unlinked. -/
theorem push_multiple_never_reaches_link_check :
    push Build.validated 0 6 [7] ⟨9, Heap.set Heap.unlinked 0 6 3⟩
      = .fatal .nodeLinked ⟨9, Heap.set Heap.unlinked 0 6 3⟩ ∧
    push_wasEmpty Build.validated 0 6 [7] ⟨9, Heap.set Heap.unlinked 0 6 3⟩
      = .fatal .nodeLinked ⟨9, Heap.set Heap.unlinked 0 6 3⟩ ∧
    push_multiple Build.validated 0 5 6 [7] ⟨9, Heap.set Heap.unlinked 0 6 3⟩ = none ∧
    push_multiple Build.validated 0 6 5 [7] ⟨9, Heap.set Heap.unlinked 0 6 3⟩ = none := by
  refine ⟨?_, ?_, by simp [push_multiple, assignable_to_top, push_multiple_load_type],
    by simp [push_multiple, assignable_to_top, push_multiple_load_type]⟩
  · simp [push, check_node_is_unlinked, Build.validated, Heap.set, Heap.unlinked]
  · simp [push_wasEmpty, check_node_is_unlinked, Build.validated, Heap.set, Heap.unlinked]

/-- C8, evaluated with 64-bit pointers: with `top_` = 0x7FF612345678, `pop_all()`
returns 0x12345678 (the low 32 bits only) and leaves `top_` = 0x7FF600000000, which
is not null. -/
theorem pop_all_exchanges_low_half_only :
    (pop_all .eight ⟨140694844102264, Heap.unlinked⟩).1 = 305419896 ∧
    (pop_all .eight ⟨140694844102264, Heap.unlinked⟩).2.top_ = 140694538682368 := by
  constructor <;> simp [pop_all, InterlockedExchange, long_to_ptr]

/-! ## QwSList: the head operations -/

/-- C9: if the list at `bb` holds the nodes `L` and `n` is a non-null, unlinked node
that is not in `L` (and is a node, not the list's own `before_begin()` pseudo node),
then `push_front(n)` returns, `front()` is `n`, `next(n)` is the old front (null
when `L` is empty), the list holds `n :: L`, and no slot other than slot `i` of `n`
and `front_` is written. -/
theorem push_front_prepends (B : Build) (i bb n : Nat) (h : Heap) (L : List Nat)
    (hw : QwSList.Holds i bb h L) (hn0 : n ≠ 0) (hnb : n ≠ bb) (hnu : h n i = 0)
    (hnL : n ∉ L) :
    ∃ h1, QwSList.push_front B i bb n h = .ok () h1 ∧
      QwSList.front i bb h1 = n ∧
      QwSList.next i h1 n = .ok (QwSList.front i bb h) ∧
      (L = [] → QwSList.next i h1 n = .ok 0) ∧
      QwSList.Holds i bb h1 (n :: L) ∧
      (∀ m j, ¬ (j = i ∧ (m = n ∨ m = bb)) → h1 m j = h m j) := by
  obtain ⟨hb0, hbL, hnd, hc⟩ := hw
  have hnext : ((h.set i n (h bb i)).set i bb n) n i = h bb i := by
    rw [Heap.set_ne_node _ _ _ _ _ _ hnb, Heap.set_same]
  refine ⟨(h.set i n (h bb i)).set i bb n, ?_, ?_, ?_, ?_, ?_, ?_⟩
  · simp [QwSList.push_front, check_node_is_unlinked_none B i h n hn0 hnu, hn0,
      QwSList.front_]
  · simp [QwSList.front, QwSList.front_]
  · simp only [QwSList.next, if_neg hn0, hnext, QwSList.front, QwSList.front_]
  · intro hL
    rw [hL] at hc
    simp only [QwSList.next, if_neg hn0, hnext]
    rw [show h bb i = 0 from hc]
  · refine ⟨hb0, ?_, List.nodup_cons.mpr ⟨hnL, hnd⟩, ?_⟩
    · intro hmem
      rcases List.mem_cons.mp hmem with e | e
      · exact hnb e.symm
      · exact hbL e
    · have hf : QwSList.front_ i bb ((h.set i n (h bb i)).set i bb n) = n := by
        simp [QwSList.front_]
      rw [hf]
      refine ⟨rfl, hn0, ?_⟩
      rw [hnext]
      exact IsChain.set_frame i i bb n _ L _ hbL
        (IsChain.set_frame i i n (h bb i) h L _ hnL hc)
  · intro m j hmj
    simp only [Heap.set]
    have h1 : ¬ (m = bb ∧ j = i) := fun e => hmj ⟨e.2, Or.inr e.1⟩
    have h2 : ¬ (m = n ∧ j = i) := fun e => hmj ⟨e.2, Or.inl e.1⟩
    rw [if_neg h1, if_neg h2]

theorem push_front_prepends_witness :
    ∃ h1, QwSList.push_front Build.validated 0 100 3
        (Heap.set (Heap.set Heap.unlinked 0 100 1) 0 1 2) = .ok () h1 ∧
      QwSList.front 0 100 h1 = 3 ∧
      QwSList.next 0 h1 3
        = .ok (QwSList.front 0 100 (Heap.set (Heap.set Heap.unlinked 0 100 1) 0 1 2)) ∧
      (([1, 2] : List Nat) = [] → QwSList.next 0 h1 3 = .ok 0) ∧
      QwSList.Holds 0 100 h1 (3 :: [1, 2]) ∧
      (∀ m j, ¬ (j = 0 ∧ (m = 3 ∨ m = 100)) →
        h1 m j = (Heap.set (Heap.set Heap.unlinked 0 100 1) 0 1 2) m j) :=
  push_front_prepends Build.validated 0 100 3
    (Heap.set (Heap.set Heap.unlinked 0 100 1) 0 1 2) [1, 2]
    (by simp [QwSList.Holds, QwSList.front_, IsChain, Heap.set, Heap.unlinked])
    (by decide) (by decide) (by simp [Heap.set, Heap.unlinked]) (by decide)

/-- C10: if the list at `bb` holds `x :: L`, then `pop_front()` returns `x`, the
list holds `L` afterwards, `front()` is the old `next(x)` (null when `L` is empty),
no slot of a node of `L` is written, and with link validation compiled in the next
slot of `x` is null afterwards. -/
theorem pop_front_removes_first (B : Build) (i bb x : Nat) (h : Heap) (L : List Nat)
    (hw : QwSList.Holds i bb h (x :: L)) :
    ∃ h1, QwSList.pop_front B i bb h = .ok x h1 ∧
      QwSList.Holds i bb h1 L ∧
      QwSList.front i bb h1 = h x i ∧
      (L = [] → QwSList.front i bb h1 = 0) ∧
      (∀ m ∈ L, ∀ j, h1 m j = h m j) ∧
      (B.validateNodeLinks = true → h1 x i = 0) := by
  obtain ⟨hb0, hbL, hnd, hfront, hx0, hc⟩ := hw
  have hbx : bb ≠ x := fun e => hbL (by simp [e])
  have hbL2 : bb ∉ L := fun e => hbL (List.mem_cons_of_mem _ e)
  have hxL : x ∉ L := (List.nodup_cons.mp hnd).1
  have hf : h bb i = x := hfront
  have hne : QwSList.empty i bb h = false := by
    simp [QwSList.empty, QwSList.front_, hf, hx0]
  have hrun : QwSList.pop_front B i bb h
      = .ok x (clear_node_link_for_validation B i (h.set i bb (h x i)) x) := by
    simp [QwSList.pop_front, hne, QwSList.front_, hf, hx0]
  have hfr : (clear_node_link_for_validation B i (h.set i bb (h x i)) x) bb i = h x i := by
    unfold clear_node_link_for_validation
    split
    · rw [Heap.set_ne_node _ _ _ _ _ _ hbx, Heap.set_same]
    · rw [Heap.set_same]
  have hch : IsChain i (clear_node_link_for_validation B i (h.set i bb (h x i)) x)
      (h x i) L := by
    have h1 : IsChain i (h.set i bb (h x i)) (h x i) L :=
      IsChain.set_frame i i bb (h x i) h L _ hbL2 hc
    unfold clear_node_link_for_validation
    split
    · exact IsChain.set_frame i i x 0 _ L _ hxL h1
    · exact h1
  refine ⟨_, hrun, ⟨hb0, hbL2, (List.nodup_cons.mp hnd).2, ?_⟩, hfr, ?_, ?_, ?_⟩
  · show IsChain i _ ((clear_node_link_for_validation B i (h.set i bb (h x i)) x) bb i) L
    rw [hfr]; exact hch
  · intro hL
    show (clear_node_link_for_validation B i (h.set i bb (h x i)) x) bb i = 0
    rw [hfr]
    rw [hL] at hc
    exact hc
  · intro m hm j
    have hmb : m ≠ bb := fun e => hbL2 (e ▸ hm)
    have hmx : m ≠ x := fun e => hxL (e ▸ hm)
    unfold clear_node_link_for_validation
    split
    · rw [Heap.set_ne_node _ _ _ _ _ _ hmx, Heap.set_ne_node _ _ _ _ _ _ hmb]
    · rw [Heap.set_ne_node _ _ _ _ _ _ hmb]
  · intro hB
    simp [clear_node_link_for_validation, hB]

theorem pop_front_removes_first_witness :
    ∃ h1, QwSList.pop_front Build.validated 0 100
        (Heap.set (Heap.set Heap.unlinked 0 100 1) 0 1 2) = .ok 1 h1 ∧
      QwSList.Holds 0 100 h1 [2] ∧
      QwSList.front 0 100 h1 = (Heap.set (Heap.set Heap.unlinked 0 100 1) 0 1 2) 1 0 ∧
      (([2] : List Nat) = [] → QwSList.front 0 100 h1 = 0) ∧
      (∀ m ∈ ([2] : List Nat), ∀ j,
        h1 m j = (Heap.set (Heap.set Heap.unlinked 0 100 1) 0 1 2) m j) ∧
      (Build.validated.validateNodeLinks = true → h1 1 0 = 0) :=
  pop_front_removes_first Build.validated 0 100 1
    (Heap.set (Heap.set Heap.unlinked 0 100 1) 0 1 2) [2]
    (by simp [QwSList.Holds, QwSList.front_, IsChain, Heap.set, Heap.unlinked])

/-! ## QwSList: chains seen from the `before_begin()` pseudo node -/

/-- A list holds `L` exactly when `bb :: L` is a duplicate-free chain that starts at
the `before_begin()` pseudo node. -/
theorem QwSList.holds_iff_chain (i bb : Nat) (h : Heap) (L : List Nat) :
    QwSList.Holds i bb h L ↔ (bb :: L).Nodup ∧ IsChain i h bb (bb :: L) := by
  unfold QwSList.Holds QwSList.front_
  constructor
  · rintro ⟨hb0, hbL, hnd, hc⟩
    exact ⟨List.nodup_cons.mpr ⟨hbL, hnd⟩, rfl, hb0, hc⟩
  · rintro ⟨hnd, _, hb0, hc⟩
    exact ⟨hb0, (List.nodup_cons.mp hnd).1, (List.nodup_cons.mp hnd).2, hc⟩

/-- In a chain the next slot of a node holds its successor. -/
theorem IsChain.next_eq (i : Nat) (h : Heap) (before s : Nat) (L2 : List Nat) :
    ∀ (L1 : List Nat) (p : Nat), IsChain i h p (L1 ++ before :: s :: L2) →
      h before i = s ∧ s ≠ 0 ∧ before ≠ 0 := by
  intro L1
  induction L1 with
  | nil => intro p hc; exact ⟨hc.2.2.1, hc.2.2.2.1, hc.2.1⟩
  | cons x xs ih => intro p hc; exact ih _ hc.2.2

/-- In a chain the next slot of the last node is null. -/
theorem IsChain.next_last (i : Nat) (h : Heap) (before : Nat) :
    ∀ (L1 : List Nat) (p : Nat), IsChain i h p (L1 ++ [before]) →
      h before i = 0 ∧ before ≠ 0 := by
  intro L1
  induction L1 with
  | nil => intro p hc; exact ⟨hc.2.2, hc.2.1⟩
  | cons x xs ih => intro p hc; exact ih _ hc.2.2

/-- The first pointer of a chain is the head of its node list, or null. -/
theorem IsChain.head_eq (i : Nat) (h : Heap) (p : Nat) (L : List Nat)
    (hc : IsChain i h p L) : p = L.headD 0 := by
  cases L with
  | nil => exact hc
  | cons x xs => exact hc.1

/-- The two stores of `insert_after` turn the chain `.. before, L2` into
`.. before, n, L2`. -/
theorem IsChain.insert (i : Nat) (h : Heap) (before n : Nat) (L2 : List Nat)
    (hn0 : n ≠ 0) :
    ∀ (L1 : List Nat) (p : Nat), IsChain i h p (L1 ++ before :: L2) →
      (L1 ++ before :: L2).Nodup → n ∉ L1 ++ before :: L2 →
      IsChain i ((h.set i n (h before i)).set i before n) p (L1 ++ before :: n :: L2) := by
  intro L1
  induction L1 with
  | nil =>
    intro p hc hnd hn
    obtain ⟨hp, hb0, hrest⟩ := hc
    have hnb : n ≠ before := fun e => hn (by simp [e])
    have hnL2 : n ∉ L2 := fun e => hn (by simp [e])
    have hbL2 : before ∉ L2 := (List.nodup_cons.mp hnd).1
    refine ⟨hp, hb0, ?_⟩
    rw [Heap.set_same]
    refine ⟨rfl, hn0, ?_⟩
    rw [Heap.set_ne_node _ _ _ _ _ _ hnb, Heap.set_same]
    exact IsChain.set_frame i i before n _ L2 _ hbL2
      (IsChain.set_frame i i n (h before i) h L2 _ hnL2 hrest)
  | cons x xs ih =>
    intro p hc hnd hn
    obtain ⟨hp, hx0, hrest⟩ := hc
    have hnd2 := List.nodup_cons.mp hnd
    have hxb : x ≠ before := fun e => hnd2.1 (by simp [e])
    have hxn : x ≠ n := fun e => hn (by simp [e])
    refine ⟨hp, hx0, ?_⟩
    rw [Heap.set_ne_node _ _ _ _ _ _ hxb, Heap.set_ne_node _ _ _ _ _ _ hxn]
    exact ih _ hrest hnd2.2 (fun e => hn (List.mem_cons_of_mem _ e))

/-- The store of `remove_after` turns the chain `.. before, s, L2` into
`.. before, L2`. -/
theorem IsChain.remove (i : Nat) (h : Heap) (before s : Nat) (L2 : List Nat) :
    ∀ (L1 : List Nat) (p : Nat), IsChain i h p (L1 ++ before :: s :: L2) →
      (L1 ++ before :: s :: L2).Nodup →
      IsChain i (h.set i before (h s i)) p (L1 ++ before :: L2) := by
  intro L1
  induction L1 with
  | nil =>
    intro p hc hnd
    obtain ⟨hp, hb0, _, _, hrest⟩ := hc
    have hbL2 : before ∉ L2 := fun e => (List.nodup_cons.mp hnd).1 (by simp [e])
    refine ⟨hp, hb0, ?_⟩
    rw [Heap.set_same]
    exact IsChain.set_frame i i before (h s i) h L2 _ hbL2 hrest
  | cons x xs ih =>
    intro p hc hnd
    obtain ⟨hp, hx0, hrest⟩ := hc
    have hnd2 := List.nodup_cons.mp hnd
    have hxb : x ≠ before := fun e => hnd2.1 (by simp [e])
    refine ⟨hp, hx0, ?_⟩
    rw [Heap.set_ne_node _ _ _ _ _ _ hxb]
    exact ih _ hrest hnd2.2

/-- Clearing the link of a node outside a chain keeps the chain. -/
theorem IsChain.clear_frame (B : Build) (i s : Nat) (h : Heap) (L : List Nat) (p : Nat)
    (hs : s ∉ L) (hc : IsChain i h p L) :
    IsChain i (clear_node_link_for_validation B i h s) p L := by
  unfold clear_node_link_for_validation
  split
  · exact IsChain.set_frame i i s 0 h L p hs hc
  · exact hc

/-- Which slots `clear_node_link_for_validation` leaves alone. -/
theorem clear_node_link_other (B : Build) (i s : Nat) (h : Heap) (m j : Nat)
    (hm : ¬ (m = s ∧ j = i)) : clear_node_link_for_validation B i h s m j = h m j := by
  unfold clear_node_link_for_validation
  split
  · simp only [Heap.set]; rw [if_neg hm]
  · rfl

/-! ## QwSList: errors of `pop_front` -/

/-- C11: with assertions compiled in (the validated build), `pop_front()` stops
fatally exactly when the list is empty; it then stops at the assertion, with
`front_` and every node as they were. -/
theorem pop_front_empty_is_fatal (B : Build) (hB : B.asserts = true) (i bb : Nat)
    (h : Heap) :
    ((∃ f h1, QwSList.pop_front B i bb h = .fatal f h1) ↔ QwSList.empty i bb h = true) ∧
    (QwSList.empty i bb h = true → QwSList.pop_front B i bb h = .fatal .assertFailed h) := by
  by_cases he : QwSList.empty i bb h = true
  · simp [QwSList.pop_front, hB, he]
  · have hf : QwSList.front_ i bb h ≠ 0 := by
      intro e; exact he (by simp [QwSList.empty, e])
    simp [QwSList.pop_front, hB, he, hf]

theorem pop_front_empty_is_fatal_witness :
    ((∃ f h1, QwSList.pop_front Build.validated 0 100 Heap.unlinked = .fatal f h1) ↔
      QwSList.empty 0 100 Heap.unlinked = true) ∧
    (QwSList.empty 0 100 Heap.unlinked = true →
      QwSList.pop_front Build.validated 0 100 Heap.unlinked
        = .fatal .assertFailed Heap.unlinked) :=
  pop_front_empty_is_fatal Build.validated rfl 0 100 Heap.unlinked

/-! ## QwSList: insertion and removal behind a node -/

/-- What `insert_after` does when its assertions and its link check pass. -/
theorem insert_after_ok (B : Build) (i before n : Nat) (h : Heap)
    (hb0 : before ≠ 0) (hn0 : n ≠ 0) (hnu : h n i = 0) :
    QwSList.insert_after B i before n h
      = .ok () ((h.set i n (h before i)).set i before n) := by
  simp [QwSList.insert_after, check_node_is_unlinked_none B i h n hn0 hnu, hb0, hn0]

/-- What `remove_after` does when `before` has a successor. -/
theorem remove_after_ok (B : Build) (i before : Nat) (h : Heap)
    (hb0 : before ≠ 0) (hs0 : h before i ≠ 0) :
    QwSList.remove_after B i before h
      = .ok (h before i) (clear_node_link_for_validation B i
          (h.set i before (h (h before i) i)) (h before i)) := by
  simp [QwSList.remove_after, hb0, hs0]

/-- C12: if the list at `bb` holds `L1 ++ before :: L2` and `n` is a non-null,
unlinked node that is not in the list (and not the list's pseudo node), then
`insert_after(before, n)` returns, as does the iterator overload with the same
memory; the list then holds `L1 ++ before :: n :: L2`, `next(before)` is `n`,
`next(n)` is the old `next(before)`, the length has grown by one and `front()` is
unchanged. -/
theorem insert_after_inserts_behind (B : Build) (i bb before n : Nat) (h : Heap)
    (L1 L2 : List Nat) (hw : QwSList.Holds i bb h (L1 ++ before :: L2))
    (hn0 : n ≠ 0) (hnb : n ≠ bb) (hnu : h n i = 0) (hnL : n ∉ L1 ++ before :: L2) :
    ∃ h1, QwSList.insert_after B i before n h = .ok () h1 ∧
      QwSList.insert_after_iter B i ⟨before⟩ n h = .ok () h1 ∧
      QwSList.Holds i bb h1 (L1 ++ before :: n :: L2) ∧
      QwSList.next i h1 before = .ok n ∧
      QwSList.next i h1 n = QwSList.next i h before ∧
      (L1 ++ before :: n :: L2).length = (L1 ++ before :: L2).length + 1 ∧
      QwSList.front i bb h1 = QwSList.front i bb h := by
  obtain ⟨hnd, hc⟩ := (QwSList.holds_iff_chain i bb h _).mp hw
  have hb0 : before ≠ 0 := IsChain.ne_zero i h _ _ hw.2.2.2 before (by simp)
  have hbb : before ≠ bb := fun e => hw.2.1 (by simp [e])
  have hnmem : n ∉ (bb :: L1) ++ before :: L2 := by
    intro e
    rcases List.mem_cons.mp e with e1 | e1
    · exact hnb e1
    · exact hnL e1
  have hrun := insert_after_ok B i before n h hb0 hn0 hnu
  have hch := IsChain.insert i h before n L2 hn0 (bb :: L1) bb hc hnd hnmem
  have hnd1 : (bb :: (L1 ++ before :: n :: L2)).Nodup := by
    have e1 : (bb :: (L1 ++ before :: L2)).Perm (before :: (bb :: L1 ++ L2)) := by
      simpa using (@List.perm_middle Nat before (bb :: L1) (L2))
    have e2 : (bb :: (L1 ++ before :: n :: L2)).Perm
        (n :: before :: (bb :: L1 ++ L2)) := by
      have q1 : (bb :: (L1 ++ before :: n :: L2)).Perm
          (before :: ((bb :: L1) ++ n :: L2)) := by
        simpa using (@List.perm_middle Nat before (bb :: L1) (n :: L2))
      have q2 : ((bb :: L1) ++ n :: L2).Perm (n :: (bb :: L1 ++ L2)) := by
        simpa using (@List.perm_middle Nat n (bb :: L1) (L2))
      exact q1.trans ((q2.cons before).trans (List.Perm.swap n before _))
    have hnd0 : (before :: (bb :: L1 ++ L2)).Nodup := e1.nodup_iff.mp hnd
    have hn2 : n ∉ before :: (bb :: L1 ++ L2) := fun e => hnmem (by
      have : n ∈ bb :: (L1 ++ before :: L2) := e1.mem_iff.mpr e
      simpa using this)
    exact e2.nodup_iff.mpr (List.nodup_cons.mpr ⟨hn2, hnd0⟩)
  refine ⟨_, hrun, hrun, ?_, ?_, ?_, ?_, ?_⟩
  · exact (QwSList.holds_iff_chain i bb _ _).mpr ⟨hnd1, hch⟩
  · simp [QwSList.next, hb0]
  · have hne : n ≠ before := fun e => hnL (by simp [e])
    simp only [QwSList.next, if_neg hn0, if_neg hb0]
    rw [Heap.set_ne_node _ _ _ _ _ _ hne, Heap.set_same]
  · simp only [List.length_append, List.length_cons]; omega
  · simp only [QwSList.front, QwSList.front_]
    rw [Heap.set_ne_node _ _ _ _ _ _ hbb.symm, Heap.set_ne_node _ _ _ _ _ _ hnb.symm]

theorem insert_after_inserts_behind_witness :
    ∃ h1, QwSList.insert_after Build.validated 0 1 3
        (Heap.set (Heap.set Heap.unlinked 0 100 1) 0 1 2) = .ok () h1 ∧
      QwSList.insert_after_iter Build.validated 0 ⟨1⟩ 3
        (Heap.set (Heap.set Heap.unlinked 0 100 1) 0 1 2) = .ok () h1 ∧
      QwSList.Holds 0 100 h1 ([] ++ 1 :: 3 :: [2]) ∧
      QwSList.next 0 h1 1 = .ok 3 ∧
      QwSList.next 0 h1 3
        = QwSList.next 0 (Heap.set (Heap.set Heap.unlinked 0 100 1) 0 1 2) 1 ∧
      (([] : List Nat) ++ 1 :: 3 :: [2]).length = (([] : List Nat) ++ 1 :: [2]).length + 1 ∧
      QwSList.front 0 100 h1
        = QwSList.front 0 100 (Heap.set (Heap.set Heap.unlinked 0 100 1) 0 1 2) :=
  insert_after_inserts_behind Build.validated 0 100 1 3
    (Heap.set (Heap.set Heap.unlinked 0 100 1) 0 1 2) [] [2]
    (by simp [QwSList.Holds, QwSList.front_, IsChain, Heap.set, Heap.unlinked])
    (by decide) (by decide) (by simp [Heap.set, Heap.unlinked]) (by decide)

/-- Dropping one element from a duplicate-free list. -/
theorem nodup_remove_middle (L1 L2 : List Nat) (before s : Nat)
    (hnd : (L1 ++ before :: s :: L2).Nodup) :
    s ∉ L1 ++ before :: L2 ∧ (L1 ++ before :: L2).Nodup := by
  have e : (L1 ++ before :: s :: L2).Perm (s :: (L1 ++ before :: L2)) := by
    simpa using (@List.perm_middle Nat s (L1 ++ [before]) (L2))
  exact List.nodup_cons.mp (e.nodup_iff.mp hnd)

/-- Removal behind any member `before` of a duplicate-free chain that starts at `p`
(a node of the list, or the `before_begin()` pseudo node at its head). -/
theorem remove_after_chain (B : Build) (i p before s : Nat) (h : Heap) (L1 L2 : List Nat)
    (hc : IsChain i h p (L1 ++ before :: s :: L2))
    (hnd : (L1 ++ before :: s :: L2).Nodup) :
    ∃ h1, QwSList.remove_after B i before h = .ok s h1 ∧
      h1 = clear_node_link_for_validation B i (h.set i before (h s i)) s ∧
      IsChain i h1 p (L1 ++ before :: L2) ∧
      h1 before i = h s i ∧ h s i = L2.headD 0 ∧
      (B.validateNodeLinks = true → h1 s i = 0) ∧
      (∀ m j, ¬ (j = i ∧ (m = before ∨ m = s)) → h1 m j = h m j) := by
  obtain ⟨hbs, hs0, hb0⟩ := IsChain.next_eq i h before s L2 L1 p hc
  obtain ⟨hsmem, _⟩ := nodup_remove_middle L1 L2 before s hnd
  have hsb : before ≠ s := fun e => hsmem (by simp [e])
  have htail : IsChain i h (h s i) L2 := by
    have key : ∀ (L1 : List Nat) (p : Nat), IsChain i h p (L1 ++ before :: s :: L2) →
        IsChain i h (h s i) L2 := by
      intro L1
      induction L1 with
      | nil => intro p hc; exact hc.2.2.2.2
      | cons x xs ih => intro p hc; exact ih _ hc.2.2
    exact key L1 p hc
  refine ⟨_, ?_, rfl, ?_, ?_, ?_, ?_, ?_⟩
  · have hrun := remove_after_ok B i before h hb0 (by rw [hbs]; exact hs0)
    rw [hbs] at hrun
    exact hrun
  · exact IsChain.clear_frame B i s _ _ p hsmem (IsChain.remove i h before s L2 L1 p hc hnd)
  · rw [clear_node_link_other B i s _ before i (fun e => hsb e.1), Heap.set_same]
  · exact IsChain.head_eq i h _ _ htail
  · intro hB
    simp [clear_node_link_for_validation, hB]
  · intro m j hmj
    rw [clear_node_link_other B i s _ m j (fun e => hmj ⟨e.2, Or.inr e.1⟩)]
    simp only [Heap.set]
    rw [if_neg (fun e => hmj ⟨e.2, Or.inl e.1⟩)]

/-- C13: if the list at `bb` holds `L1 ++ before :: s :: L2`, then
`remove_after(before)` returns `s`, the list holds `L1 ++ before :: L2` afterwards,
`next(before)` is the old `next(s)`, only the next slots of `before` and `s` are
written, and with link validation compiled in the next slot of `s` is null. -/
theorem remove_after_unlinks_successor (B : Build) (i bb before s : Nat) (h : Heap)
    (L1 L2 : List Nat) (hw : QwSList.Holds i bb h (L1 ++ before :: s :: L2)) :
    ∃ h1, QwSList.remove_after B i before h = .ok s h1 ∧
      QwSList.Holds i bb h1 (L1 ++ before :: L2) ∧
      h1 before i = h s i ∧
      (∀ m j, ¬ (j = i ∧ (m = before ∨ m = s)) → h1 m j = h m j) ∧
      (B.validateNodeLinks = true → h1 s i = 0) := by
  obtain ⟨hnd, hc⟩ := (QwSList.holds_iff_chain i bb h _).mp hw
  obtain ⟨h1, hrun, _, hch, hnext, _, hclr, hframe⟩ :=
    remove_after_chain B i bb before s h (bb :: L1) L2 hc hnd
  exact ⟨h1, hrun,
    (QwSList.holds_iff_chain i bb h1 _).mpr
      ⟨(nodup_remove_middle (bb :: L1) L2 before s hnd).2, hch⟩,
    hnext, hframe, hclr⟩

theorem remove_after_unlinks_successor_witness :
    ∃ h1, QwSList.remove_after Build.validated 0 1
        (Heap.set (Heap.set (Heap.set Heap.unlinked 0 100 1) 0 1 2) 0 2 3) = .ok 2 h1 ∧
      QwSList.Holds 0 100 h1 ([] ++ 1 :: [3]) ∧
      h1 1 0 = (Heap.set (Heap.set (Heap.set Heap.unlinked 0 100 1) 0 1 2) 0 2 3) 2 0 ∧
      (∀ m j, ¬ (j = 0 ∧ (m = 1 ∨ m = 2)) →
        h1 m j = (Heap.set (Heap.set (Heap.set Heap.unlinked 0 100 1) 0 1 2) 0 2 3) m j) ∧
      (Build.validated.validateNodeLinks = true → h1 2 0 = 0) :=
  remove_after_unlinks_successor Build.validated 0 100 1 2
    (Heap.set (Heap.set (Heap.set Heap.unlinked 0 100 1) 0 1 2) 0 2 3) [] [3]
    (by simp [QwSList.Holds, QwSList.front_, IsChain, Heap.set, Heap.unlinked])

/-- C14: with assertions compiled in (the validated build), `remove_after(before)`
on a non-null `before` stops fatally exactly when the next slot of `before` is
null, and then stops at the assertion with the memory untouched; this is the case
for the last node of a list and for `before_begin()` of an empty list. -/
theorem remove_after_no_successor_is_fatal (B : Build) (hB : B.asserts = true)
    (i before : Nat) (h : Heap) (hb0 : before ≠ 0) :
    ((∃ f h1, QwSList.remove_after B i before h = .fatal f h1) ↔ h before i = 0) ∧
    (h before i = 0 → QwSList.remove_after B i before h = .fatal .assertFailed h) ∧
    (∀ bb L1, QwSList.Holds i bb h (L1 ++ [before]) →
      QwSList.remove_after B i before h = .fatal .assertFailed h) ∧
    (QwSList.Holds i before h [] →
      QwSList.remove_after B i (QwSList.before_begin before).deref h
        = .fatal .assertFailed h) := by
  have hfat : h before i = 0 →
      QwSList.remove_after B i before h = .fatal .assertFailed h := by
    intro hz; simp [QwSList.remove_after, hB, hb0, hz]
  refine ⟨?_, hfat, ?_, ?_⟩
  · by_cases hz : h before i = 0
    · simp [QwSList.remove_after, hB, hb0, hz]
    · simp [QwSList.remove_after, hB, hb0, hz]
  · intro bb L1 hw
    exact hfat (IsChain.next_last i h before L1 _ hw.2.2.2).1
  · intro hw
    exact hfat hw.2.2.2

theorem remove_after_no_successor_is_fatal_witness :
    ((∃ f h1, QwSList.remove_after Build.validated 0 1
        (Heap.set Heap.unlinked 0 100 1) = .fatal f h1) ↔
      (Heap.set Heap.unlinked 0 100 1) 1 0 = 0) ∧
    ((Heap.set Heap.unlinked 0 100 1) 1 0 = 0 →
      QwSList.remove_after Build.validated 0 1 (Heap.set Heap.unlinked 0 100 1)
        = .fatal .assertFailed (Heap.set Heap.unlinked 0 100 1)) ∧
    (∀ bb L1, QwSList.Holds 0 bb (Heap.set Heap.unlinked 0 100 1) (L1 ++ [1]) →
      QwSList.remove_after Build.validated 0 1 (Heap.set Heap.unlinked 0 100 1)
        = .fatal .assertFailed (Heap.set Heap.unlinked 0 100 1)) ∧
    (QwSList.Holds 0 1 (Heap.set Heap.unlinked 0 100 1) [] →
      QwSList.remove_after Build.validated 0 (QwSList.before_begin 1).deref
        (Heap.set Heap.unlinked 0 100 1)
        = .fatal .assertFailed (Heap.set Heap.unlinked 0 100 1)) :=
  remove_after_no_successor_is_fatal Build.validated rfl 0 1
    (Heap.set Heap.unlinked 0 100 1) (by decide)

/-! ## QwSList: `erase_after` -/

/-- What `erase_after` does when the position has a successor. -/
theorem erase_after_ok (B : Build) (i before : Nat) (h : Heap)
    (hb0 : before ≠ 0) (hs0 : h before i ≠ 0) :
    QwSList.erase_after B i ⟨before⟩ h
      = .ok ⟨clear_node_link_for_validation B i
            (h.set i before (h (h before i) i)) (h before i) before i⟩
          (clear_node_link_for_validation B i
            (h.set i before (h (h before i) i)) (h before i)) := by
  have hne : ((⟨before⟩ : QwSList.iterator) == QwSList.end_) = false := by
    simp [QwSList.end_, hb0]
  simp [QwSList.erase_after, hne, QwSList.iterator.deref, hb0, hs0]

/-- At a non-null position without successor `erase_after` passes its assertion
(which only compares `before` with `end()`) and then reads the next slot of the null
successor, in every build. -/
theorem erase_after_no_successor (B : Build) (i before : Nat) (h : Heap)
    (hb0 : before ≠ 0) (hz : h before i = 0) :
    QwSList.erase_after B i ⟨before⟩ h = .fatal .nullDeref h := by
  have hne : ((⟨before⟩ : QwSList.iterator) == QwSList.end_) = false := by
    simp [QwSList.end_, hb0]
  simp [QwSList.erase_after, hne, QwSList.iterator.deref, hb0, hz]

/-- C15, evaluated in the validated build: on the list holding the single node 1,
`erase_after(iterator(1))` does not stop at an assertion but dereferences the null
successor; so does `erase_after(before_begin())` on an empty list; `remove_after(1)`
on the same list stops at its assertion. -/
theorem erase_after_at_last_node_reads_null :
    QwSList.erase_after Build.validated 0 ⟨1⟩ (Heap.set Heap.unlinked 0 100 1)
      = .fatal .nullDeref (Heap.set Heap.unlinked 0 100 1) ∧
    QwSList.erase_after Build.validated 0 (QwSList.before_begin 100) Heap.unlinked
      = .fatal .nullDeref Heap.unlinked ∧
    QwSList.remove_after Build.validated 0 1 (Heap.set Heap.unlinked 0 100 1)
      = .fatal .assertFailed (Heap.set Heap.unlinked 0 100 1) := by
  refine ⟨?_, ?_, ?_⟩
  · exact erase_after_no_successor _ 0 1 _ (by decide) (by simp [Heap.set, Heap.unlinked])
  · exact erase_after_no_successor _ 0 100 _ (by decide) (by simp [Heap.unlinked])
  · simp [QwSList.remove_after, Build.validated, Heap.set, Heap.unlinked]

/-- C16: if the list at `bb` holds `L` and `before` (a node of the list or the
`before_begin()` pseudo node) is followed by `s`, that is `bb :: L` is
`P ++ before :: s :: L2`, then `erase_after(before)` returns with the memory that
`remove_after(*before)` leaves, the list then holds what remains when `s` is taken
out, and the iterator returned points at the node that followed `s`: the head of
`L2`, which is `end()` exactly when `L2` is empty. -/
theorem erase_after_result (B : Build) (i bb before s : Nat) (h : Heap)
    (L P L2 : List Nat) (hw : QwSList.Holds i bb h L)
    (hsplit : bb :: L = P ++ before :: s :: L2) :
    ∃ h1, QwSList.erase_after B i ⟨before⟩ h = .ok ⟨L2.headD 0⟩ h1 ∧
      QwSList.remove_after B i before h = .ok s h1 ∧
      QwSList.Holds i bb h1 (P ++ before :: L2).tail ∧
      ((⟨L2.headD 0⟩ : QwSList.iterator) = QwSList.end_ ↔ L2 = []) := by
  obtain ⟨hnd, hc⟩ := (QwSList.holds_iff_chain i bb h _).mp hw
  rw [hsplit] at hnd hc
  obtain ⟨hbs, hs0, hb0⟩ := IsChain.next_eq i h before s L2 P bb hc
  obtain ⟨h1, hrun, hh1, hch, hnext, hhead, _, _⟩ :=
    remove_after_chain B i bb before s h P L2 hc hnd
  have hnd1 := (nodup_remove_middle P L2 before s hnd).2
  have hshape : P ++ before :: L2 = bb :: (P ++ before :: L2).tail := by
    cases P with
    | nil =>
      have e : bb = before := by simpa using congrArg List.head? hsplit
      simp [e]
    | cons x xs =>
      have e : bb = x := by simpa using congrArg List.head? hsplit
      simp [e]
  have herase := erase_after_ok B i before h hb0 (by rw [hbs]; exact hs0)
  rw [hbs] at herase
  rw [← hh1] at herase
  rw [hnext, hhead] at herase
  refine ⟨h1, herase, hrun, ?_, ?_⟩
  · rw [hshape] at hnd1 hch
    exact (QwSList.holds_iff_chain i bb h1 _).mpr ⟨hnd1, hch⟩
  · have hL2 : IsChain i h (L2.headD 0) L2 := by
      have key : ∀ (P : List Nat) (p : Nat), IsChain i h p (P ++ before :: s :: L2) →
          IsChain i h (h s i) L2 := by
        intro P
        induction P with
        | nil => intro p hc; exact hc.2.2.2.2
        | cons x xs ih => intro p hc; exact ih _ hc.2.2
      rw [← hhead]; exact key P bb hc
    constructor
    · intro e
      have hz : L2.headD 0 = 0 := by simpa [QwSList.end_] using e
      cases L2 with
      | nil => rfl
      | cons y ys => exact absurd hz (by simpa using hL2.2.1)
    · intro e
      simp [e, QwSList.end_]

theorem erase_after_result_witness :
    ∃ h1, QwSList.erase_after Build.validated 0 ⟨100⟩
        (Heap.set (Heap.set Heap.unlinked 0 100 1) 0 1 2) = .ok ⟨([2] : List Nat).headD 0⟩ h1 ∧
      QwSList.remove_after Build.validated 0 100
        (Heap.set (Heap.set Heap.unlinked 0 100 1) 0 1 2) = .ok 1 h1 ∧
      QwSList.Holds 0 100 h1 ([] ++ 100 :: [2]).tail ∧
      ((⟨([2] : List Nat).headD 0⟩ : QwSList.iterator) = QwSList.end_ ↔
        ([2] : List Nat) = []) :=
  erase_after_result Build.validated 0 100 100 1
    (Heap.set (Heap.set Heap.unlinked 0 100 1) 0 1 2) [1, 2] [] [2]
    (by simp [QwSList.Holds, QwSList.front_, IsChain, Heap.set, Heap.unlinked])
    rfl

/-! ## QwSList: size predicates, the pseudo node, swap -/

/-- C17: if the list at `bb` holds `L`, then `empty()` is true exactly when `L` has
no node, which is exactly when `front()` is null; `size_is_1()` is true exactly
when `L` has one node and `size_is_greater_than_1()` exactly when it has two or
more; so exactly one of the three is true. The three are pure reads of the memory. -/
theorem size_predicates_classify (i bb : Nat) (h : Heap) (L : List Nat)
    (hw : QwSList.Holds i bb h L) :
    (QwSList.empty i bb h = true ↔ L.length = 0) ∧
    (QwSList.empty i bb h = true ↔ QwSList.front i bb h = 0) ∧
    (QwSList.size_is_1 i bb h = true ↔ L.length = 1) ∧
    (QwSList.size_is_greater_than_1 i bb h = true ↔ 2 ≤ L.length) ∧
    ((QwSList.empty i bb h && !QwSList.size_is_1 i bb h
          && !QwSList.size_is_greater_than_1 i bb h)
      || (!QwSList.empty i bb h && QwSList.size_is_1 i bb h
          && !QwSList.size_is_greater_than_1 i bb h)
      || (!QwSList.empty i bb h && !QwSList.size_is_1 i bb h
          && QwSList.size_is_greater_than_1 i bb h)) = true := by
  obtain ⟨_, _, _, hc⟩ := hw
  cases L with
  | nil =>
    have hf : QwSList.front_ i bb h = 0 := hc
    simp [QwSList.empty, QwSList.size_is_1, QwSList.size_is_greater_than_1,
      QwSList.front, hf]
  | cons x xs =>
    obtain ⟨hf, hx0, hrest⟩ := hc
    cases xs with
    | nil =>
      have hn : h x i = 0 := hrest
      simp [QwSList.empty, QwSList.size_is_1, QwSList.size_is_greater_than_1,
        QwSList.front, hf, hx0, hn]
    | cons y ys =>
      obtain ⟨hn, hy0, _⟩ := hrest
      simp [QwSList.empty, QwSList.size_is_1, QwSList.size_is_greater_than_1,
        QwSList.front, hf, hx0, hn, hy0]

theorem size_predicates_classify_witness :
    (QwSList.empty 0 100 (Heap.set (Heap.set Heap.unlinked 0 100 1) 0 1 2) = true ↔
      ([1, 2] : List Nat).length = 0) ∧
    (QwSList.empty 0 100 (Heap.set (Heap.set Heap.unlinked 0 100 1) 0 1 2) = true ↔
      QwSList.front 0 100 (Heap.set (Heap.set Heap.unlinked 0 100 1) 0 1 2) = 0) ∧
    (QwSList.size_is_1 0 100 (Heap.set (Heap.set Heap.unlinked 0 100 1) 0 1 2) = true ↔
      ([1, 2] : List Nat).length = 1) ∧
    (QwSList.size_is_greater_than_1 0 100
        (Heap.set (Heap.set Heap.unlinked 0 100 1) 0 1 2) = true ↔
      2 ≤ ([1, 2] : List Nat).length) ∧
    ((QwSList.empty 0 100 (Heap.set (Heap.set Heap.unlinked 0 100 1) 0 1 2)
          && !QwSList.size_is_1 0 100 (Heap.set (Heap.set Heap.unlinked 0 100 1) 0 1 2)
          && !QwSList.size_is_greater_than_1 0 100
                (Heap.set (Heap.set Heap.unlinked 0 100 1) 0 1 2))
      || (!QwSList.empty 0 100 (Heap.set (Heap.set Heap.unlinked 0 100 1) 0 1 2)
          && QwSList.size_is_1 0 100 (Heap.set (Heap.set Heap.unlinked 0 100 1) 0 1 2)
          && !QwSList.size_is_greater_than_1 0 100
                (Heap.set (Heap.set Heap.unlinked 0 100 1) 0 1 2))
      || (!QwSList.empty 0 100 (Heap.set (Heap.set Heap.unlinked 0 100 1) 0 1 2)
          && !QwSList.size_is_1 0 100 (Heap.set (Heap.set Heap.unlinked 0 100 1) 0 1 2)
          && QwSList.size_is_greater_than_1 0 100
                (Heap.set (Heap.set Heap.unlinked 0 100 1) 0 1 2))) = true :=
  size_predicates_classify 0 100 (Heap.set (Heap.set Heap.unlinked 0 100 1) 0 1 2) [1, 2]
    (by simp [QwSList.Holds, QwSList.front_, IsChain, Heap.set, Heap.unlinked])

/-- C18: if the list at `bb` holds `L` and `n` is a non-null unlinked node outside
it, then `insert_after(before_begin(), n)`, through either overload, has the very
outcome of `push_front(n)`: it returns with the same memory, in which the list
holds `n :: L`; when `L` is empty, `front()` is `n`, `begin()` differs from
`end()`, `next(n)` is null and `size_is_1()` is true. -/
theorem insert_after_before_begin_is_push_front (B : Build) (i bb n : Nat) (h : Heap)
    (L : List Nat) (hw : QwSList.Holds i bb h L)
    (hn0 : n ≠ 0) (hnb : n ≠ bb) (hnu : h n i = 0) (hnL : n ∉ L) :
    ∃ h1, QwSList.push_front B i bb n h = .ok () h1 ∧
      QwSList.insert_after_iter B i (QwSList.before_begin bb) n h = .ok () h1 ∧
      QwSList.insert_after B i (QwSList.before_begin bb).deref n h = .ok () h1 ∧
      QwSList.Holds i bb h1 (n :: L) ∧
      (L = [] → QwSList.front i bb h1 = n ∧ QwSList.begin_ i bb h1 ≠ QwSList.end_ ∧
        QwSList.next i h1 n = .ok 0 ∧ QwSList.size_is_1 i bb h1 = true) := by
  obtain ⟨hnd, hc⟩ := (QwSList.holds_iff_chain i bb h _).mp hw
  have hb0 : bb ≠ 0 := hw.1
  have hins := insert_after_ok B i bb n h hb0 hn0 hnu
  have hpush : QwSList.push_front B i bb n h
      = .ok () ((h.set i n (h bb i)).set i bb n) := by
    simp [QwSList.push_front, check_node_is_unlinked_none B i h n hn0 hnu, hn0,
      QwSList.front_]
  have hnmem : n ∉ ([] : List Nat) ++ bb :: L := by
    intro e
    rcases List.mem_cons.mp e with e1 | e1
    · exact hnb e1
    · exact hnL e1
  have hch := IsChain.insert i h bb n L hn0 [] bb hc hnd hnmem
  have hnd1 : (bb :: n :: L).Nodup := by
    have hnd0 := List.nodup_cons.mp hnd
    refine List.nodup_cons.mpr ⟨?_, List.nodup_cons.mpr ⟨hnL, hnd0.2⟩⟩
    intro e
    rcases List.mem_cons.mp e with e1 | e1
    · exact hnb e1.symm
    · exact hnd0.1 e1
  have hholds : QwSList.Holds i bb ((h.set i n (h bb i)).set i bb n) (n :: L) :=
    (QwSList.holds_iff_chain i bb _ _).mpr ⟨hnd1, hch⟩
  refine ⟨_, hpush, hins, hins, hholds, ?_⟩
  intro hL
  have hfront : ((h.set i n (h bb i)).set i bb n) bb i = n := Heap.set_same _ _ _ _
  have hnext : ((h.set i n (h bb i)).set i bb n) n i = 0 := by
    rw [Heap.set_ne_node _ _ _ _ _ _ hnb, Heap.set_same]
    rw [hL] at hw
    exact hw.2.2.2
  refine ⟨hfront, ?_, ?_, ?_⟩
  · simp [QwSList.begin_, QwSList.end_, QwSList.front_, hfront, hn0]
  · simp [QwSList.next, hn0, hnext]
  · simp [QwSList.size_is_1, QwSList.front_, hfront, hn0, hnext]

theorem insert_after_before_begin_is_push_front_witness :
    ∃ h1, QwSList.push_front Build.validated 0 100 7 Heap.unlinked = .ok () h1 ∧
      QwSList.insert_after_iter Build.validated 0 (QwSList.before_begin 100) 7
        Heap.unlinked = .ok () h1 ∧
      QwSList.insert_after Build.validated 0 (QwSList.before_begin 100).deref 7
        Heap.unlinked = .ok () h1 ∧
      QwSList.Holds 0 100 h1 (7 :: []) ∧
      (([] : List Nat) = [] → QwSList.front 0 100 h1 = 7 ∧
        QwSList.begin_ 0 100 h1 ≠ QwSList.end_ ∧
        QwSList.next 0 h1 7 = .ok 0 ∧ QwSList.size_is_1 0 100 h1 = true) :=
  insert_after_before_begin_is_push_front Build.validated 0 100 7 Heap.unlinked []
    (by simp [QwSList.Holds, QwSList.front_, IsChain, Heap.unlinked])
    (by decide) (by decide) rfl (by simp)

/-- C19: for a list object at a non-null address, `remove_after(*before_begin())`
has the very outcome of `pop_front()`, and one step of `++` (prefix or postfix)
from `before_begin()` gives `begin()`; so if the list holds `x :: L`, both calls
return `x` with the same memory, in which the list holds `L`. -/
theorem remove_after_before_begin_is_pop_front (B : Build) (i bb : Nat) (h : Heap)
    (hb0 : bb ≠ 0) :
    QwSList.remove_after B i (QwSList.before_begin bb).deref h
      = QwSList.pop_front B i bb h ∧
    (QwSList.before_begin bb).incr i h = .ok (QwSList.begin_ i bb h) ∧
    (QwSList.before_begin bb).post_incr i h
      = .ok (QwSList.before_begin bb, QwSList.begin_ i bb h) ∧
    (∀ x L, QwSList.Holds i bb h (x :: L) →
      ∃ h1, QwSList.pop_front B i bb h = .ok x h1 ∧
        QwSList.remove_after B i (QwSList.before_begin bb).deref h = .ok x h1 ∧
        QwSList.Holds i bb h1 L) := by
  have heq : QwSList.remove_after B i (QwSList.before_begin bb).deref h
      = QwSList.pop_front B i bb h := by
    simp [QwSList.remove_after, QwSList.pop_front, QwSList.before_begin,
      QwSList.iterator.deref, QwSList.empty, QwSList.front_, hb0]
  refine ⟨heq, ?_, ?_, ?_⟩
  · simp [QwSList.iterator.incr, QwSList.before_begin, QwSList.begin_, QwSList.front_, hb0]
  · simp [QwSList.iterator.post_incr, QwSList.iterator.incr, QwSList.before_begin,
      QwSList.begin_, QwSList.front_, hb0]
  · intro x L hw
    obtain ⟨hnd, hc⟩ := (QwSList.holds_iff_chain i bb h _).mp hw
    obtain ⟨h1, hrun, _, hch, _, _, _, _⟩ :=
      remove_after_chain B i bb bb x h [] L hc hnd
    have hrun2 : QwSList.remove_after B i (QwSList.before_begin bb).deref h = .ok x h1 :=
      hrun
    refine ⟨h1, ?_, hrun2, ?_⟩
    · rw [← heq]; exact hrun2
    · exact (QwSList.holds_iff_chain i bb h1 _).mpr
        ⟨(nodup_remove_middle [] L bb x hnd).2, hch⟩

theorem remove_after_before_begin_is_pop_front_witness :
    QwSList.remove_after Build.validated 0 (QwSList.before_begin 100).deref
        (Heap.set (Heap.set Heap.unlinked 0 100 1) 0 1 2)
      = QwSList.pop_front Build.validated 0 100
          (Heap.set (Heap.set Heap.unlinked 0 100 1) 0 1 2) ∧
    (QwSList.before_begin 100).incr 0 (Heap.set (Heap.set Heap.unlinked 0 100 1) 0 1 2)
      = .ok (QwSList.begin_ 0 100 (Heap.set (Heap.set Heap.unlinked 0 100 1) 0 1 2)) ∧
    (QwSList.before_begin 100).post_incr 0
        (Heap.set (Heap.set Heap.unlinked 0 100 1) 0 1 2)
      = .ok (QwSList.before_begin 100,
          QwSList.begin_ 0 100 (Heap.set (Heap.set Heap.unlinked 0 100 1) 0 1 2)) ∧
    (∀ x L, QwSList.Holds 0 100 (Heap.set (Heap.set Heap.unlinked 0 100 1) 0 1 2) (x :: L) →
      ∃ h1, QwSList.pop_front Build.validated 0 100
          (Heap.set (Heap.set Heap.unlinked 0 100 1) 0 1 2) = .ok x h1 ∧
        QwSList.remove_after Build.validated 0 (QwSList.before_begin 100).deref
          (Heap.set (Heap.set Heap.unlinked 0 100 1) 0 1 2) = .ok x h1 ∧
        QwSList.Holds 0 100 h1 L) :=
  remove_after_before_begin_is_pop_front Build.validated 0 100
    (Heap.set (Heap.set Heap.unlinked 0 100 1) 0 1 2) (by decide)

/-- Swapping twice gives back the memory one started from. -/
theorem swap_swap (i a b : Nat) (h : Heap) :
    QwSList.swap i a b (QwSList.swap i a b h) = h := by
  funext m j
  simp only [QwSList.swap, QwSList.front_, Heap.set]
  by_cases hb : m = b ∧ j = i
  · obtain ⟨rfl, rfl⟩ := hb
    by_cases hab : a = m
    · simp [hab]
    · simp [hab]
  · by_cases ha : m = a ∧ j = i
    · obtain ⟨rfl, rfl⟩ := ha
      have hne : ¬ m = b := fun e => hb ⟨e, rfl⟩
      simp [hne]
    · simp [hb, ha]

/-- Swapping a list with itself leaves the memory as it is. -/
theorem swap_self (i a : Nat) (h : Heap) : QwSList.swap i a a h = h := by
  funext m j
  simp only [QwSList.swap, QwSList.front_, Heap.set]
  by_cases ha : m = a ∧ j = i
  · obtain ⟨rfl, rfl⟩ := ha; simp
  · simp [ha]

/-- C20: if the list at `a` holds `A` and the list at `b` holds `B` (neither list
object being a node of the other list), then after `a.swap(b)`, which is also what
the free function `swap(a, b)` does, the list at `a` holds `B` and the list at `b`
holds `A`; only the two `front_` fields are written; swapping twice restores the
memory, and swapping a list with itself changes nothing. -/
theorem swap_exchanges_contents (i a b : Nat) (h : Heap) (A Bl : List Nat)
    (hA : QwSList.Holds i a h A) (hB : QwSList.Holds i b h Bl)
    (haB : a ∉ Bl) (hbA : b ∉ A) :
    QwSList.Holds i a (QwSList.swap i a b h) Bl ∧
    QwSList.Holds i b (QwSList.swap i a b h) A ∧
    swap i a b h = QwSList.swap i a b h ∧
    (∀ m j, ¬ (j = i ∧ (m = a ∨ m = b)) → QwSList.swap i a b h m j = h m j) ∧
    QwSList.swap i a b (QwSList.swap i a b h) = h ∧
    QwSList.swap i a a h = h := by
  obtain ⟨ha0, haA, hndA, hcA⟩ := hA
  obtain ⟨hb0, hbB, hndB, hcB⟩ := hB
  have hframe : ∀ (L : List Nat) (p : Nat), a ∉ L → b ∉ L → IsChain i h p L →
      IsChain i (QwSList.swap i a b h) p L := by
    intro L p h1 h2 hc
    exact IsChain.set_frame i i b _ _ L p h2 (IsChain.set_frame i i a _ h L p h1 hc)
  have hfb : QwSList.front_ i b (QwSList.swap i a b h) = QwSList.front_ i a h := by
    simp [QwSList.swap, QwSList.front_]
  have hfa : QwSList.front_ i a (QwSList.swap i a b h) = QwSList.front_ i b h := by
    by_cases hab : a = b
    · subst hab; simp [QwSList.swap, QwSList.front_]
    · simp only [QwSList.swap, QwSList.front_]
      rw [Heap.set_ne_node _ _ _ _ _ _ hab, Heap.set_same]
  refine ⟨⟨ha0, haB, hndB, ?_⟩, ⟨hb0, hbA, hndA, ?_⟩, rfl, ?_, swap_swap i a b h,
    swap_self i a h⟩
  · rw [hfa]; exact hframe Bl _ haB hbB hcB
  · rw [hfb]; exact hframe A _ haA hbA hcA
  · intro m j hmj
    simp only [QwSList.swap, Heap.set]
    rw [if_neg (fun e => hmj ⟨e.2, Or.inr e.1⟩), if_neg (fun e => hmj ⟨e.2, Or.inl e.1⟩)]

theorem swap_exchanges_contents_witness :
    QwSList.Holds 0 100 (QwSList.swap 0 100 200
        (Heap.set (Heap.set (Heap.set Heap.unlinked 0 100 1) 0 1 2) 0 200 3)) [3] ∧
    QwSList.Holds 0 200 (QwSList.swap 0 100 200
        (Heap.set (Heap.set (Heap.set Heap.unlinked 0 100 1) 0 1 2) 0 200 3)) [1, 2] ∧
    swap 0 100 200 (Heap.set (Heap.set (Heap.set Heap.unlinked 0 100 1) 0 1 2) 0 200 3)
      = QwSList.swap 0 100 200
          (Heap.set (Heap.set (Heap.set Heap.unlinked 0 100 1) 0 1 2) 0 200 3) ∧
    (∀ m j, ¬ (j = 0 ∧ (m = 100 ∨ m = 200)) →
      QwSList.swap 0 100 200
          (Heap.set (Heap.set (Heap.set Heap.unlinked 0 100 1) 0 1 2) 0 200 3) m j
        = (Heap.set (Heap.set (Heap.set Heap.unlinked 0 100 1) 0 1 2) 0 200 3) m j) ∧
    QwSList.swap 0 100 200 (QwSList.swap 0 100 200
        (Heap.set (Heap.set (Heap.set Heap.unlinked 0 100 1) 0 1 2) 0 200 3))
      = Heap.set (Heap.set (Heap.set Heap.unlinked 0 100 1) 0 1 2) 0 200 3 ∧
    QwSList.swap 0 100 100
        (Heap.set (Heap.set (Heap.set Heap.unlinked 0 100 1) 0 1 2) 0 200 3)
      = Heap.set (Heap.set (Heap.set Heap.unlinked 0 100 1) 0 1 2) 0 200 3 :=
  swap_exchanges_contents 0 100 200
    (Heap.set (Heap.set (Heap.set Heap.unlinked 0 100 1) 0 1 2) 0 200 3) [1, 2] [3]
    (by simp [QwSList.Holds, QwSList.front_, IsChain, Heap.set, Heap.unlinked])
    (by simp [QwSList.Holds, QwSList.front_, IsChain, Heap.set, Heap.unlinked])
    (by decide) (by decide)

/-! ## Link validation and membership -/

/-- C21, refuted in the validated build: the list at 100 holds the single node 1,
which is its last member, so the next slot of 1 is null; `push_front(1)` and
`insert_after(before_begin(), 1)` pass the unlinked check and return, leaving node 1
linked to itself. -/
theorem last_member_passes_unlinked_check :
    QwSList.Holds 0 100 (Heap.set Heap.unlinked 0 100 1) [1] ∧
    (∃ h1, QwSList.push_front Build.validated 0 100 1 (Heap.set Heap.unlinked 0 100 1)
        = .ok () h1 ∧ QwSList.front 0 100 h1 = 1 ∧ h1 1 0 = 1) ∧
    (∃ h1, QwSList.insert_after Build.validated 0 100 1 (Heap.set Heap.unlinked 0 100 1)
        = .ok () h1 ∧ QwSList.front 0 100 h1 = 1 ∧ h1 1 0 = 1) := by
  refine ⟨?_, ⟨Heap.set (Heap.set (Heap.set Heap.unlinked 0 100 1) 0 1 1) 0 100 1,
      ?_, ?_, ?_⟩,
    ⟨Heap.set (Heap.set (Heap.set Heap.unlinked 0 100 1) 0 1 1) 0 100 1, ?_, ?_, ?_⟩⟩
  · simp [QwSList.Holds, QwSList.front_, IsChain, Heap.set, Heap.unlinked]
  · simp [QwSList.push_front, check_node_is_unlinked, Build.validated, QwSList.front_,
      Heap.set, Heap.unlinked]
  · simp [QwSList.front, QwSList.front_, Heap.set]
  · simp [Heap.set]
  · simp [QwSList.insert_after, check_node_is_unlinked, Build.validated, Heap.set,
      Heap.unlinked]
  · simp [QwSList.front, QwSList.front_, Heap.set]
  · simp [Heap.set]

/-- C21 as amended: with link validation compiled in, if `n` is a member of a list
(the list at `bb` or any other list on slot `i`) at a position other than the last,
then `push_front(n)` and `insert_after(before, n)` with a non-null `before`, through
either overload, stop fatally at the unlinked check with the memory untouched. -/
theorem linked_member_is_rejected (B : Build) (hB : B.validateNodeLinks = true)
    (i bb other before n s : Nat) (h : Heap) (L1 L2 : List Nat)
    (hw : QwSList.Holds i other h (L1 ++ n :: s :: L2)) (hb0 : before ≠ 0) :
    QwSList.push_front B i bb n h = .fatal .nodeLinked h ∧
    QwSList.insert_after B i before n h = .fatal .nodeLinked h ∧
    QwSList.insert_after_iter B i ⟨before⟩ n h = .fatal .nodeLinked h := by
  obtain ⟨hns, hs0, hn0⟩ := IsChain.next_eq i h n s L2 L1 _ hw.2.2.2
  have hlinked : h n i ≠ 0 := by rw [hns]; exact hs0
  have hchk : check_node_is_unlinked B i h n = some .nodeLinked := by
    simp [check_node_is_unlinked, hB, hn0, hlinked]
  have hins : QwSList.insert_after B i before n h = .fatal .nodeLinked h := by
    simp [QwSList.insert_after, hchk, hb0, hn0]
  refine ⟨?_, hins, hins⟩
  simp [QwSList.push_front, hchk]

theorem linked_member_is_rejected_witness :
    QwSList.push_front Build.validated 0 100 1
        (Heap.set (Heap.set Heap.unlinked 0 100 1) 0 1 2)
      = .fatal .nodeLinked (Heap.set (Heap.set Heap.unlinked 0 100 1) 0 1 2) ∧
    QwSList.insert_after Build.validated 0 2 1
        (Heap.set (Heap.set Heap.unlinked 0 100 1) 0 1 2)
      = .fatal .nodeLinked (Heap.set (Heap.set Heap.unlinked 0 100 1) 0 1 2) ∧
    QwSList.insert_after_iter Build.validated 0 ⟨2⟩ 1
        (Heap.set (Heap.set Heap.unlinked 0 100 1) 0 1 2)
      = .fatal .nodeLinked (Heap.set (Heap.set Heap.unlinked 0 100 1) 0 1 2) :=
  linked_member_is_rejected Build.validated rfl 0 100 100 2 1 2
    (Heap.set (Heap.set Heap.unlinked 0 100 1) 0 1 2) [] []
    (by simp [QwSList.Holds, QwSList.front_, IsChain, Heap.set, Heap.unlinked])
    (by decide)

/-! ## Slot independence -/

@[simp] theorem Heap.others_slot (i : Nat) (g h : Heap) (m : Nat) :
    Heap.others i g h m i = h m i := by
  simp [Heap.others]

theorem Heap.others_other (i : Nat) (g h : Heap) (m j : Nat) (hj : j ≠ i) :
    Heap.others i g h m j = g m j := by
  simp [Heap.others, hj]

theorem Heap.others_set (i : Nat) (g h : Heap) (n v : Nat) :
    (Heap.others i g h).set i n v = Heap.others i g (h.set i n v) := by
  funext m j
  by_cases hj : j = i
  · subst hj; simp [Heap.others, Heap.set]
  · simp [Heap.others, Heap.set, hj]

theorem Heap.others_self (i : Nat) (h : Heap) : Heap.others i h h = h := by
  funext m j
  simp [Heap.others]

theorem check_node_is_unlinked_others (B : Build) (i : Nat) (g h : Heap) (n : Nat) :
    check_node_is_unlinked B i (Heap.others i g h) n = check_node_is_unlinked B i h n := by
  simp [check_node_is_unlinked]

theorem clear_node_link_others (B : Build) (i : Nat) (g h : Heap) (n : Nat) :
    clear_node_link_for_validation B i (Heap.others i g h) n
      = Heap.others i g (clear_node_link_for_validation B i h n) := by
  unfold clear_node_link_for_validation
  split
  · exact Heap.others_set i g h n 0
  · rfl

/-- A chain through slot `j` only depends on slot `j`. -/
theorem IsChain.others (i j : Nat) (g h : Heap) (hj : j ≠ i) :
    ∀ (L : List Nat) (p : Nat), IsChain j g p L → IsChain j (Heap.others i g h) p L := by
  intro L
  induction L with
  | nil => intro p hc; exact hc
  | cons x xs ih =>
    intro p hc
    obtain ⟨hp, hx, hrest⟩ := hc
    refine ⟨hp, hx, ?_⟩
    rw [Heap.others_other i g h x j hj]
    exact ih _ hrest

theorem cas_retry_loop_others (i link newTop : Nat) (g : Heap) :
    ∀ (env : List Nat) (s : StackState) (k : Nat),
      cas_retry_loop i link newTop env (s.others i g) k
        = ⟨(cas_retry_loop i link newTop env s k).state.others i g,
           (cas_retry_loop i link newTop env s k).top,
           (cas_retry_loop i link newTop env s k).replaced,
           (cas_retry_loop i link newTop env s k).iterations⟩ := by
  intro env
  induction env with
  | nil =>
    intro s k
    simp [cas_retry_loop, StackState.others, Heap.others_set]
  | cons v env ih =>
    intro s k
    by_cases hv : v = s.top_
    · simp [cas_retry_loop, StackState.others, Heap.others_set, hv]
    · have hstep : (⟨v, (Heap.others i g s.heap).set i link s.top_⟩ : StackState)
          = StackState.others i g ⟨v, s.heap.set i link s.top_⟩ := by
        simp [StackState.others, Heap.others_set]
      have h1 : cas_retry_loop i link newTop (v :: env) (s.others i g) k
          = cas_retry_loop i link newTop env
              (StackState.others i g ⟨v, s.heap.set i link s.top_⟩) (k + 1) := by
        rw [← hstep]
        simp [cas_retry_loop, StackState.others, hv]
      have h2 : cas_retry_loop i link newTop (v :: env) s k
          = cas_retry_loop i link newTop env ⟨v, s.heap.set i link s.top_⟩ (k + 1) := by
        simp [cas_retry_loop, hv]
      rw [h1, h2]
      exact ih _ _

theorem push_others (B : Build) (i node : Nat) (g : Heap) (env : List Nat)
    (s : StackState) :
    push B i node env (s.others i g)
      = (push B i node env s).mapState (StackState.others i g) := by
  unfold push
  have hc : check_node_is_unlinked B i (s.others i g).heap node
      = check_node_is_unlinked B i s.heap node :=
    check_node_is_unlinked_others B i g s.heap node
  rw [hc]
  cases check_node_is_unlinked B i s.heap node with
  | some f => rfl
  | none =>
    by_cases hn : node = 0
    · simp [hn, Outcome.mapState]
    · simp [hn, Outcome.mapState, cas_retry_loop_others]

theorem push_wasEmpty_others (B : Build) (i node : Nat) (g : Heap) (env : List Nat)
    (s : StackState) :
    push_wasEmpty B i node env (s.others i g)
      = (push_wasEmpty B i node env s).mapState (StackState.others i g) := by
  unfold push_wasEmpty
  have hc : check_node_is_unlinked B i (s.others i g).heap node
      = check_node_is_unlinked B i s.heap node :=
    check_node_is_unlinked_others B i g s.heap node
  rw [hc]
  cases check_node_is_unlinked B i s.heap node with
  | some f => rfl
  | none =>
    by_cases hn : node = 0
    · simp [hn, Outcome.mapState]
    · simp [hn, Outcome.mapState, cas_retry_loop_others]

theorem push_multiple_others (B : Build) (i front back : Nat) (g : Heap)
    (env : List Nat) (s : StackState) :
    push_multiple_body B i front back env (s.others i g)
      = (push_multiple_body B i front back env s).mapState (StackState.others i g) := by
  unfold push_multiple_body
  have hc : check_node_is_unlinked B i (s.others i g).heap back
      = check_node_is_unlinked B i s.heap back :=
    check_node_is_unlinked_others B i g s.heap back
  rw [hc]
  cases check_node_is_unlinked B i s.heap back with
  | some f => rfl
  | none =>
    by_cases hn : back = 0
    · simp [hn, Outcome.mapState]
    · simp [hn, Outcome.mapState, cas_retry_loop_others]

theorem push_front_others (B : Build) (i bb n : Nat) (g h : Heap) :
    QwSList.push_front B i bb n (Heap.others i g h)
      = (QwSList.push_front B i bb n h).mapState (Heap.others i g) := by
  unfold QwSList.push_front
  rw [check_node_is_unlinked_others]
  cases check_node_is_unlinked B i h n with
  | some f => rfl
  | none =>
    by_cases hn : n = 0
    · simp [hn, Outcome.mapState]
    · simp [hn, Outcome.mapState, QwSList.front_, Heap.others_set]

theorem pop_front_others (B : Build) (i bb : Nat) (g h : Heap) :
    QwSList.pop_front B i bb (Heap.others i g h)
      = (QwSList.pop_front B i bb h).mapState (Heap.others i g) := by
  unfold QwSList.pop_front
  simp only [QwSList.empty, QwSList.front_, Heap.others_slot]
  split
  · rfl
  · split
    · rfl
    · simp [Outcome.mapState, Heap.others_set, clear_node_link_others]

theorem insert_after_others (B : Build) (i before n : Nat) (g h : Heap) :
    QwSList.insert_after B i before n (Heap.others i g h)
      = (QwSList.insert_after B i before n h).mapState (Heap.others i g) := by
  unfold QwSList.insert_after
  rw [check_node_is_unlinked_others]
  split
  · rfl
  · split
    · rfl
    · cases check_node_is_unlinked B i h n with
      | some f => rfl
      | none =>
        by_cases hz : before = 0 ∨ n = 0
        · simp [hz, Outcome.mapState]
        · simp [hz, Outcome.mapState, Heap.others_set]

theorem remove_after_others (B : Build) (i before : Nat) (g h : Heap) :
    QwSList.remove_after B i before (Heap.others i g h)
      = (QwSList.remove_after B i before h).mapState (Heap.others i g) := by
  unfold QwSList.remove_after
  simp only [Heap.others_slot]
  split
  · rfl
  · split
    · rfl
    · split
      · rfl
      · simp [Outcome.mapState, Heap.others_set, clear_node_link_others]

theorem erase_after_others (B : Build) (i : Nat) (before : QwSList.iterator) (g h : Heap) :
    QwSList.erase_after B i before (Heap.others i g h)
      = (QwSList.erase_after B i before h).mapState (Heap.others i g) := by
  unfold QwSList.erase_after
  simp only [Heap.others_slot]
  split
  · rfl
  · split
    · rfl
    · split
      · rfl
      · simp [Outcome.mapState, Heap.others_set, clear_node_link_others]

theorem swap_others (i a b : Nat) (g h : Heap) :
    QwSList.swap i a b (Heap.others i g h) = Heap.others i g (QwSList.swap i a b h) := by
  simp [QwSList.swap, QwSList.front_, Heap.others_set]

theorem clear_loop_others (B : Build) (i bb : Nat) (g : Heap) :
    ∀ (fuel : Nat) (h : Heap),
      QwSList.clear_loop B i bb fuel (Heap.others i g h)
        = (QwSList.clear_loop B i bb fuel h).map (Outcome.mapState (Heap.others i g)) := by
  intro fuel
  induction fuel with
  | zero =>
    intro h
    simp only [QwSList.clear_loop, QwSList.empty, QwSList.front_, Heap.others_slot]
    split <;> rfl
  | succ f ih =>
    intro h
    simp only [QwSList.clear_loop, pop_front_others]
    simp only [QwSList.empty, QwSList.front_, Heap.others_slot]
    split
    · rfl
    · cases QwSList.pop_front B i bb h with
      | ok r h1 => simp only [Outcome.mapState]; exact ih h1
      | fatal e h1 => rfl

theorem clear_others (B : Build) (i bb fuel : Nat) (g h : Heap) :
    QwSList.clear B i bb fuel (Heap.others i g h)
      = (QwSList.clear B i bb fuel h).map (Outcome.mapState (Heap.others i g)) := by
  unfold QwSList.clear
  split
  · exact clear_loop_others B i bb g fuel h
  · simp [Outcome.mapState, Heap.others_set]

/-- C22: let the memory have arbitrary content `g` in the slots other than `i` and
`h` in slot `i`. Every operation of the stack and of the list on slot `i` then
behaves as it does on `h` alone (same result, same fault, same slot `i`
afterwards), and leaves the other slots holding `g`; hence a chain through a slot
`j` other than `i` is still the same chain afterwards. -/
theorem slot_independence (B : Build) (P : PtrSize) (i : Nat) (g : Heap) :
    (∀ node env s, push B i node env (StackState.others i g s)
        = (push B i node env s).mapState (StackState.others i g)) ∧
    (∀ node env s, push_wasEmpty B i node env (StackState.others i g s)
        = (push_wasEmpty B i node env s).mapState (StackState.others i g)) ∧
    ((∀ front back env s, push_multiple_body B i front back env (StackState.others i g s)
        = (push_multiple_body B i front back env s).mapState (StackState.others i g)) ∧
     (∀ front back env s, push_multiple B i front back env (StackState.others i g s)
        = (push_multiple B i front back env s).map
            (Outcome.mapState (StackState.others i g)))) ∧
    (∀ s, pop_all P (StackState.others i g s)
        = ((pop_all P s).1, StackState.others i g (pop_all P s).2)) ∧
    (∀ s, (StackState.others i g s).empty = s.empty) ∧
    (∀ bb n h, QwSList.push_front B i bb n (Heap.others i g h)
        = (QwSList.push_front B i bb n h).mapState (Heap.others i g)) ∧
    (∀ bb h, QwSList.pop_front B i bb (Heap.others i g h)
        = (QwSList.pop_front B i bb h).mapState (Heap.others i g)) ∧
    (∀ before n h, QwSList.insert_after B i before n (Heap.others i g h)
        = (QwSList.insert_after B i before n h).mapState (Heap.others i g)) ∧
    (∀ before h, QwSList.remove_after B i before (Heap.others i g h)
        = (QwSList.remove_after B i before h).mapState (Heap.others i g)) ∧
    (∀ before h, QwSList.erase_after B i before (Heap.others i g h)
        = (QwSList.erase_after B i before h).mapState (Heap.others i g)) ∧
    (∀ a b h, QwSList.swap i a b (Heap.others i g h)
        = Heap.others i g (QwSList.swap i a b h)) ∧
    (∀ bb fuel h, QwSList.clear B i bb fuel (Heap.others i g h)
        = (QwSList.clear B i bb fuel h).map (Outcome.mapState (Heap.others i g))) ∧
    (∀ bb h, QwSList.empty i bb (Heap.others i g h) = QwSList.empty i bb h ∧
      QwSList.size_is_1 i bb (Heap.others i g h) = QwSList.size_is_1 i bb h ∧
      QwSList.size_is_greater_than_1 i bb (Heap.others i g h)
        = QwSList.size_is_greater_than_1 i bb h ∧
      QwSList.front i bb (Heap.others i g h) = QwSList.front i bb h ∧
      QwSList.begin_ i bb (Heap.others i g h) = QwSList.begin_ i bb h) ∧
    (∀ n h, QwSList.next i (Heap.others i g h) n = QwSList.next i h n) ∧
    (∀ it h, QwSList.iterator.incr i (Heap.others i g h) it = QwSList.iterator.incr i h it) ∧
    (∀ h m j, j ≠ i → Heap.others i g h m j = g m j) ∧
    (∀ h j p L, j ≠ i → IsChain j g p L → IsChain j (Heap.others i g h) p L) := by
  refine ⟨fun node env s => push_others B i node g env s,
    fun node env s => push_wasEmpty_others B i node g env s,
    ⟨fun front back env s => push_multiple_others B i front back g env s,
     fun front back env s => by
      simp only [push_multiple]
      split
      · simp [push_multiple_others]
      · rfl⟩,
    fun s => rfl, fun s => rfl,
    fun bb n h => push_front_others B i bb n g h,
    fun bb h => pop_front_others B i bb g h,
    fun before n h => insert_after_others B i before n g h,
    fun before h => remove_after_others B i before g h,
    fun before h => erase_after_others B i before g h,
    fun a b h => swap_others i a b g h,
    fun bb fuel h => clear_others B i bb fuel g h,
    fun bb h => ?_, fun n h => ?_, fun it h => ?_,
    fun h m j hj => Heap.others_other i g h m j hj,
    fun h j p L hj hc => IsChain.others i j g h hj L p hc⟩
  · simp [QwSList.empty, QwSList.size_is_1, QwSList.size_is_greater_than_1,
      QwSList.front, QwSList.begin_, QwSList.front_]
  · simp [QwSList.next]
  · simp [QwSList.iterator.incr]

/-! ## The list against the reference sequence -/

/-- Putting one new element into a duplicate-free list. -/
theorem nodup_insert_middle (L1 L2 : List Nat) (b n : Nat)
    (hnd : (L1 ++ b :: L2).Nodup) (hn : n ∉ L1 ++ b :: L2) :
    (L1 ++ b :: n :: L2).Nodup := by
  have e : (L1 ++ b :: n :: L2).Perm (n :: (L1 ++ b :: L2)) := by
    simpa using (@List.perm_middle Nat n (L1 ++ [b]) L2)
  exact e.nodup_iff.mpr (List.nodup_cons.mpr ⟨hn, hnd⟩)

/-- Insertion behind any member `before` of a duplicate-free chain that starts at
`p` (a node of the list, or the `before_begin()` pseudo node at its head). -/
theorem insert_after_chain (B : Build) (i p before n : Nat) (h : Heap) (L1 L2 : List Nat)
    (hc : IsChain i h p (L1 ++ before :: L2)) (hnd : (L1 ++ before :: L2).Nodup)
    (hn0 : n ≠ 0) (hnu : h n i = 0) (hn : n ∉ L1 ++ before :: L2) :
    QwSList.insert_after B i before n h
        = .ok () ((h.set i n (h before i)).set i before n) ∧
      IsChain i ((h.set i n (h before i)).set i before n) p (L1 ++ before :: n :: L2) ∧
      (L1 ++ before :: n :: L2).Nodup := by
  have hb0 : before ≠ 0 := IsChain.ne_zero i h _ _ hc before (by simp)
  exact ⟨insert_after_ok B i before n h hb0 hn0 hnu,
    IsChain.insert i h before n L2 hn0 L1 p hc hnd hn,
    nodup_insert_middle L1 L2 before n hnd hn⟩

/-- On a list object at a non-null address `push_front(n)` is
`insert_after(before_begin(), n)`. -/
theorem push_front_eq_insert_after (B : Build) (i bb n : Nat) (h : Heap)
    (hb0 : bb ≠ 0) (hn0 : n ≠ 0) :
    QwSList.push_front B i bb n h = QwSList.insert_after B i bb n h := by
  unfold QwSList.push_front QwSList.insert_after
  cases check_node_is_unlinked B i h n with
  | some f => simp [hb0, hn0]
  | none => simp [hb0, hn0, QwSList.front_]

/-- On a list object at a non-null address `pop_front()` is
`remove_after(before_begin())`. -/
theorem pop_front_eq_remove_after (B : Build) (i bb : Nat) (h : Heap) (hb0 : bb ≠ 0) :
    QwSList.pop_front B i bb h = QwSList.remove_after B i bb h := by
  simp [QwSList.remove_after, QwSList.pop_front, QwSList.empty, QwSList.front_, hb0]

/-- A valid index splits a list around its element. -/
theorem split_at_index : ∀ (M : List Nat) (k : Nat), k < M.length →
    ∃ L1 x L2, M = L1 ++ x :: L2 ∧ L1.length = k := by
  intro M
  induction M with
  | nil => intro k hk; simp at hk
  | cons y ys ih =>
    intro k hk
    cases k with
    | zero => exact ⟨[], y, ys, rfl, rfl⟩
    | succ k =>
      obtain ⟨L1, x, L2, hM, hlen⟩ := ih k (by simpa using hk)
      exact ⟨y :: L1, x, L2, by simp [hM], by simp [hlen]⟩

theorem insertIdx_behind : ∀ (L1 : List Nat) (x n : Nat) (L2 : List Nat),
    (L1 ++ x :: L2).insertIdx (L1.length + 1) n = L1 ++ x :: n :: L2 := by
  intro L1
  induction L1 with
  | nil => intro x n L2; simp [List.insertIdx_succ_cons]
  | cons y ys ih =>
    intro x n L2
    simp only [List.cons_append, List.length_cons, List.insertIdx_succ_cons]
    rw [ih]

theorem eraseIdx_behind : ∀ (L1 : List Nat) (x s : Nat) (L2 : List Nat),
    (L1 ++ x :: s :: L2).eraseIdx (L1.length + 1) = L1 ++ x :: L2 ∧
    (L1 ++ x :: s :: L2)[L1.length + 1]? = some s := by
  intro L1
  induction L1 with
  | nil => intro x s L2; simp
  | cons y ys ih =>
    intro x s L2
    obtain ⟨h1, h2⟩ := ih x s L2
    constructor
    · simp only [List.cons_append, List.length_cons, List.eraseIdx_cons_succ]
      rw [h1]
    · simp only [List.cons_append, List.length_cons, List.getElem?_cons_succ]
      exact h2

/-- Walking `k` steps of `next` from the head of a chain reaches its `k`-th node. -/
theorem node_at_chain (i : Nat) (h : Heap) (x : Nat) (L2 : List Nat) :
    ∀ (L1 : List Nat) (p : Nat), IsChain i h p (L1 ++ x :: L2) →
      QwSList.node_at i h L1.length p = .ok x := by
  intro L1
  induction L1 with
  | nil => intro p hc; simp [QwSList.node_at, hc.1]
  | cons y ys ih =>
    intro p hc
    obtain ⟨hp, hy, hrest⟩ := hc
    simp only [List.length_cons, QwSList.node_at, QwSList.next, hp, if_neg hy]
    exact ih _ hrest

/-- One call that meets its precondition returns what the model returns and leaves
the list holding the model's new sequence. -/
theorem run_op_refines (B : Build) (i bb : Nat) (op : ListOp) (h : Heap) (M : List Nat)
    (hw : QwSList.Holds i bb h M) (hpre : op_pre i bb h M op) :
    ∃ h1, run_op B i bb op h = .ok (model_op op M).1 h1 ∧
      QwSList.Holds i bb h1 (model_op op M).2 := by
  obtain ⟨hnd, hc⟩ := (QwSList.holds_iff_chain i bb h _).mp hw
  have hb0 : bb ≠ 0 := hw.1
  cases op with
  | push_front n =>
    obtain ⟨hn0, hnb, hnM, hnu⟩ := hpre
    have hn : n ∉ ([] : List Nat) ++ bb :: M := by
      intro e
      rcases List.mem_cons.mp e with e1 | e1
      · exact hnb e1
      · exact hnM e1
    obtain ⟨hrun, hch, hnd1⟩ := insert_after_chain B i bb bb n h [] M hc hnd hn0 hnu hn
    refine ⟨_, ?_, (QwSList.holds_iff_chain i bb _ _).mpr ⟨hnd1, hch⟩⟩
    simp only [run_op, push_front_eq_insert_after B i bb n h hb0 hn0, hrun, model_op]
  | insert_after k n =>
    obtain ⟨hk, hn0, hnb, hnM, hnu⟩ := hpre
    obtain ⟨L1, x, L2, hM, hlen⟩ := split_at_index M k hk
    subst hM
    have hn : n ∉ (bb :: L1) ++ x :: L2 := by
      intro e
      rcases List.mem_cons.mp e with e1 | e1
      · exact hnb e1
      · exact hnM e1
    obtain ⟨hrun, hch, hnd1⟩ :=
      insert_after_chain B i bb x n h (bb :: L1) L2 hc hnd hn0 hnu hn
    have hpos : QwSList.node_at i h k (QwSList.front i bb h) = .ok x := by
      rw [← hlen]
      exact node_at_chain i h x L2 L1 _ hw.2.2.2
    refine ⟨(h.set i n (h x i)).set i x n, ?_, ?_⟩
    · simp only [run_op, hpos, hrun, model_op]
    · simp only [model_op]
      rw [← hlen, insertIdx_behind]
      exact (QwSList.holds_iff_chain i bb _ _).mpr ⟨hnd1, hch⟩
  | pop_front =>
    cases M with
    | nil => exact absurd rfl hpre
    | cons x L =>
      obtain ⟨h1, hrun, _, hch, _, _, _, _⟩ := remove_after_chain B i bb bb x h [] L hc hnd
      refine ⟨h1, ?_, ?_⟩
      · simp only [run_op, pop_front_eq_remove_after B i bb h hb0, hrun, model_op]
        simp
      · simp only [model_op, List.eraseIdx_cons_zero]
        exact (QwSList.holds_iff_chain i bb h1 _).mpr
          ⟨(nodup_remove_middle [] L bb x hnd).2, hch⟩
  | remove_after k =>
    have hk : k + 1 < M.length := hpre
    obtain ⟨L1, x, L2, hM, hlen⟩ := split_at_index M k (by omega)
    subst hM
    cases L2 with
    | nil => simp at hk; omega
    | cons s L2 =>
      obtain ⟨h1, hrun, _, hch, _, _, _, _⟩ :=
        remove_after_chain B i bb x s h (bb :: L1) L2 hc hnd
      have hpos : QwSList.node_at i h k (QwSList.front i bb h) = .ok x := by
        rw [← hlen]
        exact node_at_chain i h x (s :: L2) L1 _ hw.2.2.2
      obtain ⟨he1, he2⟩ := eraseIdx_behind L1 x s L2
      refine ⟨h1, ?_, ?_⟩
      · simp only [run_op, hpos, hrun, model_op]
        rw [← hlen, he2]
      · simp only [model_op]
        rw [← hlen, he1]
        exact (QwSList.holds_iff_chain i bb h1 _).mpr
          ⟨(nodup_remove_middle (bb :: L1) L2 x s hnd).2, hch⟩

/-- From any memory in which the list holds the model's sequence, every run agrees
with the model. -/
theorem refines_of_holds (B : Build) (i bb : Nat) :
    ∀ (ops : List ListOp) (h : Heap) (M : List Nat),
      QwSList.Holds i bb h M → Refines B i bb ops h M := by
  intro ops
  induction ops with
  | nil =>
    intro h M hw
    exact ⟨hw, walk_of_isChain i h M _ M.length hw.2.2.2 (Nat.le_refl _)⟩
  | cons op ops ih =>
    intro h M hw
    refine ⟨⟨hw, walk_of_isChain i h M _ M.length hw.2.2.2 (Nat.le_refl _)⟩, ?_⟩
    intro hpre
    obtain ⟨h1, hrun, hw1⟩ := run_op_refines B i bb op h M hw hpre
    exact ⟨h1, hrun, ih h1 _ hw1⟩

/-- A default-constructed list at a non-null address holds no node. -/
theorem init_holds (i bb : Nat) (h : Heap) (hb0 : bb ≠ 0) :
    QwSList.Holds i bb (QwSList.init i bb h) [] := by
  refine ⟨hb0, by simp, List.nodup_nil, ?_⟩
  show QwSList.front_ i bb (QwSList.init i bb h) = 0
  simp [QwSList.front_, QwSList.init]

/-- C23: for every finite sequence of `push_front`, `insert_after`, `pop_front` and
`remove_after` calls on a default-constructed list, as long as each call meets its
precondition: before and after every call the nodes met by following `next` from
`front()` to null are exactly the reference sequence, in order and number, and
every call returns what the model's insert-at-index or remove-at-index returns. -/
theorem list_refines_model (B : Build) (i bb : Nat) (h0 : Heap) (hb0 : bb ≠ 0)
    (ops : List ListOp) :
    Refines B i bb ops (QwSList.init i bb h0) [] :=
  refines_of_holds B i bb ops _ [] (init_holds i bb h0 hb0)

theorem list_refines_model_witness :
    Refines Build.validated 0 100
      [.push_front 1, .insert_after 0 2, .push_front 3, .remove_after 1, .pop_front]
      (QwSList.init 0 100 Heap.unlinked) [] :=
  list_refines_model Build.validated 0 100 Heap.unlinked (by decide)
    [.push_front 1, .insert_after 0 2, .push_front 3, .remove_after 1, .pop_front]

/-- A run of the code next to the model, evaluated: `push_front(1)`,
`insert_after(front(), 2)`, `pop_front()` on an empty list return nothing, nothing
and node 1, and leave the list holding node 2 alone, as the model does. -/
theorem list_run_evaluated :
    ∃ h1 h2 h3,
      run_op Build.validated 0 100 (.push_front 1) (QwSList.init 0 100 Heap.unlinked)
        = .ok none h1 ∧
      run_op Build.validated 0 100 (.insert_after 0 2) h1 = .ok none h2 ∧
      run_op Build.validated 0 100 .pop_front h2 = .ok (some 1) h3 ∧
      walk 0 h3 2 (QwSList.front 0 100 h3) = [2] ∧
      (model_op .pop_front (model_op (.insert_after 0 2)
        (model_op (.push_front 1) []).2).2) = (some 1, [2]) := by
  have H := refines_of_holds Build.validated 0 100
    [.push_front 1, .insert_after 0 2, .pop_front] _ []
    (init_holds 0 100 Heap.unlinked (by decide))
  obtain ⟨_, H1⟩ := H
  obtain ⟨h1, r1, H⟩ := H1 (by simp [op_pre, QwSList.init, Heap.set, Heap.unlinked])
  have e1 : h1 2 0 = 0 := by
    have hu : (QwSList.init 0 100 Heap.unlinked) 1 0 = 0 := by
      simp [QwSList.init, Heap.set, Heap.unlinked]
    have r0 := r1
    simp only [run_op, QwSList.push_front,
      check_node_is_unlinked_none Build.validated 0 _ 1 (by decide) hu] at r0
    simp only [model_op, if_neg (show (1 : Nat) ≠ 0 by decide), Outcome.ok.injEq,
      true_and] at r0
    rw [← r0]; simp [QwSList.init, QwSList.front_, Heap.set, Heap.unlinked]
  obtain ⟨_, H2⟩ := H
  obtain ⟨h2, r2, H⟩ := H2 (by simp [op_pre, model_op, e1])
  obtain ⟨_, H3⟩ := H
  obtain ⟨h3, r3, H⟩ := H3 (by simp [op_pre, model_op])
  obtain ⟨_, hwalk⟩ := H
  refine ⟨h1, h2, h3, r1, r2, r3, ?_, by simp [model_op]⟩
  simpa [model_op] using hwalk

/-! ## QwSList: `clear` -/

/-- The loop of the validated `clear()` pops every node of a well-formed list and
stops; `L.length` iterations suffice. -/
theorem clear_loop_chain (B : Build) (i bb : Nat) :
    ∀ (L : List Nat) (h : Heap) (fuel : Nat), QwSList.Holds i bb h L → L.length ≤ fuel →
      ∃ h1, QwSList.clear_loop B i bb fuel h = some (.ok () h1) ∧
        QwSList.Holds i bb h1 [] ∧
        (B.validateNodeLinks = true → ∀ n ∈ L, h1 n i = 0) ∧
        (∀ m j, ¬ (j = i ∧ (m = bb ∨ m ∈ L)) → h1 m j = h m j) := by
  intro L
  induction L with
  | nil =>
    intro h fuel hw _
    have he : QwSList.empty i bb h = true := by
      have hf : QwSList.front_ i bb h = 0 := hw.2.2.2
      simp [QwSList.empty, hf]
    refine ⟨h, ?_, hw, fun _ n hn => absurd hn (by simp), fun _ _ _ => rfl⟩
    cases fuel with
    | zero => simp [QwSList.clear_loop, he]
    | succ f => simp [QwSList.clear_loop, he]
  | cons x L ih =>
    intro h fuel hw hlen
    obtain ⟨hnd, hc⟩ := (QwSList.holds_iff_chain i bb h _).mp hw
    have hb0 : bb ≠ 0 := hw.1
    cases fuel with
    | zero => simp at hlen
    | succ f =>
      obtain ⟨h1, hrun, _, hch, _, _, hclr, hframe⟩ :=
        remove_after_chain B i bb bb x h [] L hc hnd
      have hnd1 := (nodup_remove_middle [] L bb x hnd).2
      have hxL : x ∉ ([] : List Nat) ++ bb :: L := (nodup_remove_middle [] L bb x hnd).1
      have hw1 : QwSList.Holds i bb h1 L :=
        (QwSList.holds_iff_chain i bb h1 _).mpr ⟨hnd1, hch⟩
      obtain ⟨h2, hrun2, hw2, hclr2, hframe2⟩ := ih h1 f hw1 (by simpa using hlen)
      have hne : QwSList.empty i bb h = false := by
        have hf : QwSList.front_ i bb h = x := hw.2.2.2.1
        have hx0 : x ≠ 0 := hw.2.2.2.2.1
        simp [QwSList.empty, hf, hx0]
      refine ⟨h2, ?_, hw2, ?_, ?_⟩
      · simp only [QwSList.clear_loop, hne, pop_front_eq_remove_after B i bb h hb0, hrun]
        simpa using hrun2
      · intro hB n hn
        rcases List.mem_cons.mp hn with e | e
        · rw [e, hframe2 x i (fun c => by
            rcases c.2 with c1 | c1
            · exact hxL (by simp [c1])
            · exact hxL (by simp [c1]))]
          exact hclr hB
        · exact hclr2 hB n e
      · intro m j hmj
        rw [hframe2 m j (fun c => hmj ⟨c.1, by
          rcases c.2 with c1 | c1
          · exact Or.inl c1
          · exact Or.inr (List.mem_cons_of_mem _ c1)⟩)]
        exact hframe m j (fun c => hmj ⟨c.1, by
          rcases c.2 with c1 | c1
          · exact Or.inl c1
          · exact Or.inr (by simp [c1])⟩)

/-- What `clear()` does to a well-formed list, for every amount of fuel that covers
its length. -/
theorem clear_chain (B : Build) (i bb : Nat) (h : Heap) (L : List Nat) (fuel : Nat)
    (hw : QwSList.Holds i bb h L) (hfuel : L.length ≤ fuel) :
    ∃ h1, QwSList.clear B i bb fuel h = some (.ok () h1) ∧
      QwSList.Holds i bb h1 [] ∧
      (B.validateNodeLinks = true → ∀ n ∈ L, h1 n i = 0) ∧
      (B.validateNodeLinks = false → ∀ m j, ¬ (m = bb ∧ j = i) → h1 m j = h m j) ∧
      (∀ m j, ¬ (j = i ∧ (m = bb ∨ m ∈ L)) → h1 m j = h m j) := by
  by_cases hB : B.validateNodeLinks = true
  · obtain ⟨h1, hrun, hw1, hclr, hframe⟩ := clear_loop_chain B i bb L h fuel hw hfuel
    refine ⟨h1, ?_, hw1, hclr, fun hf => absurd hB (by simp [hf]), hframe⟩
    simp [QwSList.clear, hB, hrun]
  · have hf : B.validateNodeLinks = false := by simpa using hB
    refine ⟨h.set i bb 0, ?_, ?_, fun c => absurd c hB, ?_, ?_⟩
    · simp [QwSList.clear, hf]
    · refine ⟨hw.1, by simp, List.nodup_nil, ?_⟩
      show QwSList.front_ i bb (h.set i bb 0) = 0
      simp [QwSList.front_]
    · intro _ m j hmj
      simp only [Heap.set]; rw [if_neg hmj]
    · intro m j hmj
      simp only [Heap.set]; rw [if_neg (fun c => hmj ⟨c.2, Or.inl c.1⟩)]

/-- C24: if the list at `bb` holds `L`, then `clear()` returns (its loop needs at
most `L.length` iterations) and leaves the list empty: `empty()` is true and
`front()` is null. With link validation compiled in, every node of `L` has a null
next slot afterwards; without it, only `front_` is written. In both builds no
slot outside the list is touched. -/
theorem clear_empties_list (B : Build) (i bb : Nat) (h : Heap) (L : List Nat)
    (fuel : Nat) (hw : QwSList.Holds i bb h L) (hfuel : L.length ≤ fuel) :
    ∃ h1, QwSList.clear B i bb fuel h = some (.ok () h1) ∧
      QwSList.empty i bb h1 = true ∧ QwSList.front i bb h1 = 0 ∧
      (B.validateNodeLinks = true → ∀ n ∈ L, h1 n i = 0) ∧
      (B.validateNodeLinks = false → ∀ m j, ¬ (m = bb ∧ j = i) → h1 m j = h m j) ∧
      (∀ m j, ¬ (j = i ∧ (m = bb ∨ m ∈ L)) → h1 m j = h m j) := by
  obtain ⟨h1, hrun, hw1, hclr, hkeep, hframe⟩ := clear_chain B i bb h L fuel hw hfuel
  have hf : QwSList.front_ i bb h1 = 0 := hw1.2.2.2
  exact ⟨h1, hrun, by simp [QwSList.empty, hf], hf, hclr, hkeep, hframe⟩

theorem clear_empties_list_witness :
    ∃ h1, QwSList.clear Build.validated 0 100 2
        (Heap.set (Heap.set Heap.unlinked 0 100 1) 0 1 2) = some (.ok () h1) ∧
      QwSList.empty 0 100 h1 = true ∧ QwSList.front 0 100 h1 = 0 ∧
      (Build.validated.validateNodeLinks = true → ∀ n ∈ ([1, 2] : List Nat), h1 n 0 = 0) ∧
      (Build.validated.validateNodeLinks = false → ∀ m j, ¬ (m = 100 ∧ j = 0) →
        h1 m j = (Heap.set (Heap.set Heap.unlinked 0 100 1) 0 1 2) m j) ∧
      (∀ m j, ¬ (j = 0 ∧ (m = 100 ∨ m ∈ ([1, 2] : List Nat))) →
        h1 m j = (Heap.set (Heap.set Heap.unlinked 0 100 1) 0 1 2) m j) :=
  clear_empties_list Build.validated 0 100
    (Heap.set (Heap.set Heap.unlinked 0 100 1) 0 1 2) [1, 2] 2
    (by simp [QwSList.Holds, QwSList.front_, IsChain, Heap.set, Heap.unlinked])
    (by decide)

/-! ## The retry loop, counted -/

/-- The run of the witness, evaluated: against the interference 7, 9, 9 the loop
body runs three times (two compare-and-swaps fail, the third wins), and the node's
next slot ends up holding 9, the value replaced, not the stale 0 or 7. -/
theorem push_retry_evaluated :
    (cas_retry_loop 0 5 5 [7, 9, 9] ⟨0, Heap.unlinked⟩ 0).iterations = 3 ∧
    (cas_retry_loop 0 5 5 [7, 9, 9] ⟨0, Heap.unlinked⟩ 0).replaced = 9 ∧
    (cas_retry_loop 0 5 5 [7, 9, 9] ⟨0, Heap.unlinked⟩ 0).state.heap 5 0 = 9 ∧
    (cas_retry_loop 0 5 5 [7, 9, 9] ⟨0, Heap.unlinked⟩ 0).state.top_ = 5 := by
  simp [cas_retry_loop, Heap.set]

/-! ## QwSList: forward iteration -/

/-- After as many prefix increments as the front part of a chain has nodes, the
iterator points at the head of the rest (null when nothing is left). -/
theorem advance_chain (i : Nat) (h : Heap) (L2 : List Nat) :
    ∀ (L1 : List Nat) (p : Nat), IsChain i h p (L1 ++ L2) →
      QwSList.iterator.advance i h L1.length ⟨p⟩ = .ok ⟨L2.headD 0⟩ := by
  intro L1
  induction L1 with
  | nil =>
    intro p hc
    simp only [List.length_nil, QwSList.iterator.advance]
    rw [IsChain.head_eq i h p L2 hc]
  | cons x xs ih =>
    intro p hc
    obtain ⟨hp, hx, hrest⟩ := hc
    simp only [List.length_cons, QwSList.iterator.advance, QwSList.iterator.incr, hp,
      if_neg hx]
    exact ih _ hrest

/-- Postfix increments along a whole chain return the nodes of the chain, in order,
and end at `end()`. -/
theorem post_advance_chain (i : Nat) (h : Heap) :
    ∀ (L : List Nat) (p : Nat), IsChain i h p L →
      QwSList.iterator.post_advance i h L.length ⟨p⟩
        = .ok (L.map QwSList.iterator.mk, QwSList.end_) := by
  intro L
  induction L with
  | nil =>
    intro p hc
    simp [QwSList.iterator.post_advance, QwSList.end_, show p = 0 from hc]
  | cons x xs ih =>
    intro p hc
    obtain ⟨hp, hx, hrest⟩ := hc
    simp only [List.length_cons, QwSList.iterator.post_advance,
      QwSList.iterator.post_incr, QwSList.iterator.incr, hp, if_neg hx, ih _ hrest,
      List.map_cons]

/-- Walking with `next` along a whole chain ends at null. -/
theorem node_at_end (i : Nat) (h : Heap) :
    ∀ (L : List Nat) (p : Nat), IsChain i h p L →
      QwSList.node_at i h L.length p = .ok 0 := by
  intro L
  induction L with
  | nil => intro p hc; simp [QwSList.node_at, show p = 0 from hc]
  | cons x xs ih =>
    intro p hc
    obtain ⟨hp, hx, hrest⟩ := hc
    simp only [List.length_cons, QwSList.node_at, QwSList.next, hp, if_neg hx]
    exact ih _ hrest

/-- C26: if the list at `bb` holds `L`, then for every node `x` of `L`, with `L1`
the nodes before it, `L1.length` prefix increments from `begin()` give an iterator
that dereferences to `x` and differs from `end()`, and `L1.length` steps of `next`
from `front()` reach `x`; `L.length` increments give `end()` and `L.length` steps of
`next` reach null; the postfix increment returns the position before the step and
moves to the position the prefix increment moves to, so `L.length` postfix
increments from `begin()` return the nodes of `L` in order and end at `end()`. -/
theorem forward_iteration_enumerates (i bb : Nat) (h : Heap) (L : List Nat)
    (hw : QwSList.Holds i bb h L) :
    (∀ L1 x L2, L = L1 ++ x :: L2 →
      QwSList.iterator.advance i h L1.length (QwSList.begin_ i bb h) = .ok ⟨x⟩ ∧
      QwSList.iterator.deref ⟨x⟩ = x ∧ (⟨x⟩ : QwSList.iterator) ≠ QwSList.end_ ∧
      QwSList.node_at i h L1.length (QwSList.front i bb h) = .ok x) ∧
    QwSList.iterator.advance i h L.length (QwSList.begin_ i bb h) = .ok QwSList.end_ ∧
    QwSList.node_at i h L.length (QwSList.front i bb h) = .ok 0 ∧
    (∀ it it1, QwSList.iterator.incr i h it = .ok it1 →
      QwSList.iterator.post_incr i h it = .ok (it, it1)) ∧
    QwSList.iterator.post_advance i h L.length (QwSList.begin_ i bb h)
      = .ok (L.map QwSList.iterator.mk, QwSList.end_) := by
  have hc : IsChain i h (QwSList.front_ i bb h) L := hw.2.2.2
  refine ⟨?_, ?_, node_at_end i h L _ hc, ?_, post_advance_chain i h L _ hc⟩
  · intro L1 x L2 hL
    subst hL
    have hx0 : x ≠ 0 := IsChain.ne_zero i h _ _ hc x (by simp)
    refine ⟨?_, rfl, ?_, node_at_chain i h x L2 L1 _ hc⟩
    · have := advance_chain i h (x :: L2) L1 _ hc
      simpa [QwSList.begin_] using this
    · intro e
      exact hx0 (by simpa [QwSList.end_] using e)
  · have := advance_chain i h [] L (QwSList.front_ i bb h) (by simpa using hc)
    simpa [QwSList.begin_, QwSList.end_] using this
  · intro it it1 hinc
    simp [QwSList.iterator.post_incr, hinc]

theorem forward_iteration_enumerates_witness :
    (∀ L1 x L2, ([1, 2] : List Nat) = L1 ++ x :: L2 →
      QwSList.iterator.advance 0 (Heap.set (Heap.set Heap.unlinked 0 100 1) 0 1 2)
          L1.length
          (QwSList.begin_ 0 100 (Heap.set (Heap.set Heap.unlinked 0 100 1) 0 1 2))
        = .ok ⟨x⟩ ∧
      QwSList.iterator.deref ⟨x⟩ = x ∧ (⟨x⟩ : QwSList.iterator) ≠ QwSList.end_ ∧
      QwSList.node_at 0 (Heap.set (Heap.set Heap.unlinked 0 100 1) 0 1 2) L1.length
          (QwSList.front 0 100 (Heap.set (Heap.set Heap.unlinked 0 100 1) 0 1 2))
        = .ok x) ∧
    QwSList.iterator.advance 0 (Heap.set (Heap.set Heap.unlinked 0 100 1) 0 1 2)
        ([1, 2] : List Nat).length
        (QwSList.begin_ 0 100 (Heap.set (Heap.set Heap.unlinked 0 100 1) 0 1 2))
      = .ok QwSList.end_ ∧
    QwSList.node_at 0 (Heap.set (Heap.set Heap.unlinked 0 100 1) 0 1 2)
        ([1, 2] : List Nat).length
        (QwSList.front 0 100 (Heap.set (Heap.set Heap.unlinked 0 100 1) 0 1 2))
      = .ok 0 ∧
    (∀ it it1,
      QwSList.iterator.incr 0 (Heap.set (Heap.set Heap.unlinked 0 100 1) 0 1 2) it
        = .ok it1 →
      QwSList.iterator.post_incr 0 (Heap.set (Heap.set Heap.unlinked 0 100 1) 0 1 2) it
        = .ok (it, it1)) ∧
    QwSList.iterator.post_advance 0 (Heap.set (Heap.set Heap.unlinked 0 100 1) 0 1 2)
        ([1, 2] : List Nat).length
        (QwSList.begin_ 0 100 (Heap.set (Heap.set Heap.unlinked 0 100 1) 0 1 2))
      = .ok (([1, 2] : List Nat).map QwSList.iterator.mk, QwSList.end_) :=
  forward_iteration_enumerates 0 100 (Heap.set (Heap.set Heap.unlinked 0 100 1) 0 1 2)
    [1, 2]
    (by simp [QwSList.Holds, QwSList.front_, IsChain, Heap.set, Heap.unlinked])

/-! ## QwSList: well-formedness is kept -/

/-- A split of `bb :: L` keeps `bb` at its head when the part behind the split
point is replaced. -/
theorem head_of_split (bb before : Nat) (L P T : List Nat)
    (hsplit : bb :: L = P ++ before :: T) (T1 : List Nat) :
    ∃ L1, P ++ before :: T1 = bb :: L1 := by
  cases P with
  | nil =>
    have e : bb = before := by simpa using congrArg List.head? hsplit
    exact ⟨T1, by simp [e]⟩
  | cons x xs =>
    have e : bb = x := by simpa using congrArg List.head? hsplit
    exact ⟨xs ++ before :: T1, by simp [e]⟩

/-- Insertion behind a member of the list, or behind `before_begin()`, keeps the
list well formed. -/
theorem insert_after_wellformed (B : Build) (i bb before n : Nat) (h : Heap)
    (L : List Nat) (hw : QwSList.Holds i bb h L) (hmem : before ∈ bb :: L)
    (hn0 : n ≠ 0) (hnb : n ≠ bb) (hnu : h n i = 0) (hnL : n ∉ L) :
    ∃ h1, QwSList.insert_after B i before n h = .ok () h1 ∧ QwSList.WellFormed i bb h1 := by
  obtain ⟨hnd, hc⟩ := (QwSList.holds_iff_chain i bb h _).mp hw
  obtain ⟨P, T, hsplit⟩ := List.append_of_mem hmem
  have hn : n ∉ P ++ before :: T := by
    rw [← hsplit]
    intro e
    rcases List.mem_cons.mp e with e1 | e1
    · exact hnb e1
    · exact hnL e1
  rw [hsplit] at hnd hc
  obtain ⟨hrun, hch, hnd1⟩ := insert_after_chain B i bb before n h P T hc hnd hn0 hnu hn
  obtain ⟨L1, hL1⟩ := head_of_split bb before L P T hsplit (n :: T)
  rw [hL1] at hch hnd1
  exact ⟨_, hrun, L1, (QwSList.holds_iff_chain i bb _ _).mpr ⟨hnd1, hch⟩⟩

/-- Removal behind a member of the list, or behind `before_begin()`, that has a
successor keeps the list well formed; `erase_after` leaves the same memory. -/
theorem remove_after_wellformed (B : Build) (i bb before : Nat) (h : Heap)
    (L : List Nat) (hw : QwSList.Holds i bb h L) (hmem : before ∈ bb :: L)
    (hsucc : h before i ≠ 0) :
    ∃ r h1, QwSList.remove_after B i before h = .ok r h1 ∧
      (∃ it, QwSList.erase_after B i ⟨before⟩ h = .ok it h1) ∧
      QwSList.WellFormed i bb h1 := by
  obtain ⟨hnd, hc⟩ := (QwSList.holds_iff_chain i bb h _).mp hw
  obtain ⟨P, T, hsplit⟩ := List.append_of_mem hmem
  rw [hsplit] at hnd hc
  cases T with
  | nil => exact absurd (IsChain.next_last i h before P bb hc).1 hsucc
  | cons s L2 =>
    obtain ⟨hbs, _, hb0⟩ := IsChain.next_eq i h before s L2 P bb hc
    obtain ⟨h1, hrun, hh1, hch, _, _, _, _⟩ :=
      remove_after_chain B i bb before s h P L2 hc hnd
    have hnd1 := (nodup_remove_middle P L2 before s hnd).2
    obtain ⟨L1, hL1⟩ := head_of_split bb before L P (s :: L2) hsplit L2
    rw [hL1] at hch hnd1
    have herase := erase_after_ok B i before h hb0 hsucc
    rw [hbs, ← hh1] at herase
    exact ⟨s, h1, hrun, ⟨_, herase⟩, L1,
      (QwSList.holds_iff_chain i bb h1 _).mpr ⟨hnd1, hch⟩⟩

/-- Swapping two lists exchanges what they hold. -/
theorem swap_holds (i a b : Nat) (h : Heap) (A Bl : List Nat)
    (hA : QwSList.Holds i a h A) (hB : QwSList.Holds i b h Bl)
    (haB : a ∉ Bl) (hbA : b ∉ A) :
    QwSList.Holds i a (QwSList.swap i a b h) Bl ∧
    QwSList.Holds i b (QwSList.swap i a b h) A := by
  obtain ⟨ha0, haA, hndA, hcA⟩ := hA
  obtain ⟨hb0, hbB, hndB, hcB⟩ := hB
  have hframe : ∀ (L : List Nat) (p : Nat), a ∉ L → b ∉ L → IsChain i h p L →
      IsChain i (QwSList.swap i a b h) p L := by
    intro L p h1 h2 hc
    exact IsChain.set_frame i i b _ _ L p h2 (IsChain.set_frame i i a _ h L p h1 hc)
  have hfb : QwSList.front_ i b (QwSList.swap i a b h) = QwSList.front_ i a h := by
    simp [QwSList.swap, QwSList.front_]
  have hfa : QwSList.front_ i a (QwSList.swap i a b h) = QwSList.front_ i b h := by
    by_cases hab : a = b
    · subst hab; simp [QwSList.swap, QwSList.front_]
    · simp only [QwSList.swap, QwSList.front_]
      rw [Heap.set_ne_node _ _ _ _ _ _ hab, Heap.set_same]
  refine ⟨⟨ha0, haB, hndB, ?_⟩, ⟨hb0, hbA, hndA, ?_⟩⟩
  · rw [hfa]; exact hframe Bl _ haB hbB hcB
  · rw [hfb]; exact hframe A _ haA hbA hcA

/-- C27: the list at a non-null address is well formed when default-constructed,
and stays well formed under `push_front`, `pop_front`, `insert_after`,
`remove_after`, `erase_after`, `swap` and `clear`, each of which returns, whenever
the precondition holds: an inserted node is non-null, unlinked, not in the list and
not the pseudo node; `before` is a member of the list or `before_begin()`; the
position of a removal has a successor; swapped list objects are not nodes of each
other. -/
theorem wellformed_is_invariant (B : Build) (i bb : Nat) :
    (∀ h, bb ≠ 0 → QwSList.WellFormed i bb (QwSList.init i bb h)) ∧
    (∀ h L n, QwSList.Holds i bb h L → n ≠ 0 → n ≠ bb → h n i = 0 → n ∉ L →
      ∃ h1, QwSList.push_front B i bb n h = .ok () h1 ∧ QwSList.WellFormed i bb h1) ∧
    (∀ h L, QwSList.Holds i bb h L → L ≠ [] →
      ∃ r h1, QwSList.pop_front B i bb h = .ok r h1 ∧ QwSList.WellFormed i bb h1) ∧
    (∀ h L before n, QwSList.Holds i bb h L → before ∈ bb :: L →
      n ≠ 0 → n ≠ bb → h n i = 0 → n ∉ L →
      ∃ h1, QwSList.insert_after B i before n h = .ok () h1 ∧
        QwSList.WellFormed i bb h1) ∧
    (∀ h L before, QwSList.Holds i bb h L → before ∈ bb :: L → h before i ≠ 0 →
      ∃ r h1, QwSList.remove_after B i before h = .ok r h1 ∧
        QwSList.WellFormed i bb h1) ∧
    (∀ h L before, QwSList.Holds i bb h L → before ∈ bb :: L → h before i ≠ 0 →
      ∃ it h1, QwSList.erase_after B i ⟨before⟩ h = .ok it h1 ∧
        QwSList.WellFormed i bb h1) ∧
    (∀ h A Bl other, QwSList.Holds i bb h A → QwSList.Holds i other h Bl →
      bb ∉ Bl → other ∉ A →
      QwSList.WellFormed i bb (QwSList.swap i bb other h) ∧
      QwSList.WellFormed i other (QwSList.swap i bb other h)) ∧
    (∀ h L fuel, QwSList.Holds i bb h L → L.length ≤ fuel →
      ∃ h1, QwSList.clear B i bb fuel h = some (.ok () h1) ∧
        QwSList.WellFormed i bb h1) := by
  refine ⟨?_, ?_, ?_, ?_, ?_, ?_, ?_, ?_⟩
  · intro h hb0
    exact ⟨[], init_holds i bb h hb0⟩
  · intro h L n hw hn0 hnb hnu hnL
    rw [push_front_eq_insert_after B i bb n h hw.1 hn0]
    exact insert_after_wellformed B i bb bb n h L hw (by simp) hn0 hnb hnu hnL
  · intro h L hw hL
    rw [pop_front_eq_remove_after B i bb h hw.1]
    cases L with
    | nil => exact absurd rfl hL
    | cons x xs =>
      have hs : h bb i ≠ 0 := by
        have hf : h bb i = x := hw.2.2.2.1
        rw [hf]; exact hw.2.2.2.2.1
      obtain ⟨r, h1, hrun, _, hwf⟩ :=
        remove_after_wellformed B i bb bb h (x :: xs) hw (by simp) hs
      exact ⟨r, h1, hrun, hwf⟩
  · intro h L before n hw hmem hn0 hnb hnu hnL
    exact insert_after_wellformed B i bb before n h L hw hmem hn0 hnb hnu hnL
  · intro h L before hw hmem hs
    obtain ⟨r, h1, hrun, _, hwf⟩ := remove_after_wellformed B i bb before h L hw hmem hs
    exact ⟨r, h1, hrun, hwf⟩
  · intro h L before hw hmem hs
    obtain ⟨_, h1, _, ⟨it, herase⟩, hwf⟩ :=
      remove_after_wellformed B i bb before h L hw hmem hs
    exact ⟨it, h1, herase, hwf⟩
  · intro h A Bl other hA hB h1 h2
    obtain ⟨ha, hb⟩ := swap_holds i bb other h A Bl hA hB h1 h2
    exact ⟨⟨Bl, ha⟩, ⟨A, hb⟩⟩
  · intro h L fuel hw hfuel
    obtain ⟨h1, hrun, hw1, _⟩ := clear_chain B i bb h L fuel hw hfuel
    exact ⟨h1, hrun, [], hw1⟩

theorem wellformed_is_invariant_witness :
    QwSList.WellFormed 0 100 (QwSList.init 0 100 Heap.unlinked) ∧
    (∃ h1, QwSList.push_front Build.validated 0 100 3
        (Heap.set (Heap.set Heap.unlinked 0 100 1) 0 1 2) = .ok () h1 ∧
      QwSList.WellFormed 0 100 h1) ∧
    (∃ r h1, QwSList.pop_front Build.validated 0 100
        (Heap.set (Heap.set Heap.unlinked 0 100 1) 0 1 2) = .ok r h1 ∧
      QwSList.WellFormed 0 100 h1) ∧
    (∃ h1, QwSList.insert_after Build.validated 0 2 3
        (Heap.set (Heap.set Heap.unlinked 0 100 1) 0 1 2) = .ok () h1 ∧
      QwSList.WellFormed 0 100 h1) ∧
    (∃ r h1, QwSList.remove_after Build.validated 0 1
        (Heap.set (Heap.set Heap.unlinked 0 100 1) 0 1 2) = .ok r h1 ∧
      QwSList.WellFormed 0 100 h1) ∧
    (∃ it h1, QwSList.erase_after Build.validated 0 ⟨100⟩
        (Heap.set (Heap.set Heap.unlinked 0 100 1) 0 1 2) = .ok it h1 ∧
      QwSList.WellFormed 0 100 h1) ∧
    (QwSList.WellFormed 0 100
        (QwSList.swap 0 100 200 (Heap.set (Heap.set Heap.unlinked 0 100 1) 0 1 2)) ∧
      QwSList.WellFormed 0 200
        (QwSList.swap 0 100 200 (Heap.set (Heap.set Heap.unlinked 0 100 1) 0 1 2))) ∧
    (∃ h1, QwSList.clear Build.validated 0 100 2
        (Heap.set (Heap.set Heap.unlinked 0 100 1) 0 1 2) = some (.ok () h1) ∧
      QwSList.WellFormed 0 100 h1) := by
  have hw : QwSList.Holds 0 100 (Heap.set (Heap.set Heap.unlinked 0 100 1) 0 1 2) [1, 2] := by
    simp [QwSList.Holds, QwSList.front_, IsChain, Heap.set, Heap.unlinked]
  have hw2 : QwSList.Holds 0 200 (Heap.set (Heap.set Heap.unlinked 0 100 1) 0 1 2) [] := by
    simp [QwSList.Holds, QwSList.front_, IsChain, Heap.set, Heap.unlinked]
  have H := wellformed_is_invariant Build.validated 0 100
  exact ⟨H.1 _ (by decide),
    H.2.1 _ [1, 2] 3 hw (by decide) (by decide) (by simp [Heap.set, Heap.unlinked])
      (by decide),
    H.2.2.1 _ [1, 2] hw (by simp),
    H.2.2.2.1 _ [1, 2] 2 3 hw (by simp) (by decide) (by decide)
      (by simp [Heap.set, Heap.unlinked]) (by decide),
    H.2.2.2.2.1 _ [1, 2] 1 hw (by simp) (by simp [Heap.set, Heap.unlinked]),
    H.2.2.2.2.2.1 _ [1, 2] 100 hw (by simp) (by simp [Heap.set, Heap.unlinked]),
    H.2.2.2.2.2.2.1 _ [1, 2] [] 200 hw hw2 (by simp) (by decide),
    H.2.2.2.2.2.2.2 _ [1, 2] 2 hw (by decide)⟩

end QueueWorld

namespace QueueWorld

theorem slot_independence_witness :
    QwSList.push_front Build.validated 0 100 3
        (Heap.others 0 (Heap.set Heap.unlinked 1 3 9) Heap.unlinked)
      = (QwSList.push_front Build.validated 0 100 3 Heap.unlinked).mapState
          (Heap.others 0 (Heap.set Heap.unlinked 1 3 9)) ∧
    Heap.others 0 (Heap.set Heap.unlinked 1 3 9) Heap.unlinked 3 1
      = (Heap.set Heap.unlinked 1 3 9) 3 1 ∧
    IsChain 1 (Heap.others 0 (Heap.set Heap.unlinked 1 3 9) Heap.unlinked) 3 [3, 9] := by
  have H := slot_independence Build.validated .four 0 (Heap.set Heap.unlinked 1 3 9)
  exact ⟨H.2.2.2.2.2.1 100 3 Heap.unlinked,
    H.2.2.2.2.2.2.2.2.2.2.2.2.2.2.2.1 Heap.unlinked 3 1 (by decide),
    H.2.2.2.2.2.2.2.2.2.2.2.2.2.2.2.2 Heap.unlinked 1 3 [3, 9] (by decide)
      (by simp [IsChain, Heap.set, Heap.unlinked])⟩

end QueueWorld
